import Mathlib

/-!
Shallow embedding of the `static_collections` crate (fixed-capacity, no-heap
containers), covering the open-addressing hash table (`src/hash_map.rs`,
`src/hash_set.rs`) and the order-indexed sequence (`src/searchable_list.rs`).

Rust arrays `[T; N]` are modelled as Lean `List`s of length `N`; `usize`
arithmetic on probe indices is `Nat` arithmetic with explicit `% N` (indices
never approach 2^64, so no wrap-around modelling is needed).  A `panic!` is
modelled as the `Res.panicked` outcome, and each unbounded Rust `loop` is run
on `N` units of fuel (the loop body revisits its starting slot after at most
`N` steps; exhaustion is the `Res.fuelOut` outcome and is proved unreachable).
The pluggable hasher is modelled as a function `hashf : K → Nat` standing for
`|key| hasher.hash_key(key)`; only its determinism is relevant.
-/

set_option maxHeartbeats 4000000
set_option maxRecDepth 4000
set_option linter.unusedSectionVars false

namespace StaticCollections

/-- Result of running a piece of Rust code that may abort the process.
`ok` is a normal return, `panicked` models a `panic!`, and `fuelOut` is an
artifact of the fuel-based embedding of `loop` (proved unreachable). -/
inductive Res (α : Type) where
  | ok (val : α)
  | panicked
  | fuelOut
deriving DecidableEq, Repr

/-- Mirrors `HashMapEntry<K, V>` from `src/hash_map.rs`. -/
inductive HashMapEntry (K V : Type) where
  | occupied (k : K) (v : V)
  | empty
  | deleted
deriving DecidableEq, Repr

/-- True on `occupied` entries. -/
def HashMapEntry.isOccupied {K V : Type} : HashMapEntry K V → Bool
  | .occupied _ _ => true
  | _ => false

/-- Mirrors `HashMap<K, V, N, H>` from `src/hash_map.rs`.  The backing array
`entries : [HashMapEntry<K, V>; N]` is a list whose length is the capacity
`N`; `build_hasher` is passed to the operations as the function `hashf`. -/
structure HashMap (K V : Type) where
  entries : List (HashMapEntry K V)
  len : Nat
deriving DecidableEq, Repr

namespace HashMap

variable {K V : Type} [DecidableEq K]

/-- Mirrors `HashMap::new` (all slots `Empty`, `len = 0`). -/
def new (K V : Type) (N : Nat) : HashMap K V :=
  { entries := List.replicate N .empty, len := 0 }

/-- Body of the `loop` in `HashMap::probe_for_available_spot`, with `spot` the
current slot and one unit of fuel consumed per iteration.  Returning
`ok (some spot)` models `return Some(spot)`, `ok none` models `return None`
(duplicate key), and `panicked` the `panic!` on a full wrap. -/
def probeAvailGo (entries : List (HashMapEntry K V)) (key : K) (orig : Nat) :
    Nat → Nat → Res (Option Nat)
  | _, 0 => .fuelOut
  | spot, fuel + 1 =>
    match entries.getD spot .empty with
    | .empty => .ok (some spot)
    | .deleted => .ok (some spot)
    | .occupied k _ =>
      if k = key then .ok none
      else
        let spot' := (spot + 1) % entries.length
        if spot' = orig then .panicked
        else probeAvailGo entries key orig spot' fuel

/-- Mirrors `HashMap::probe_for_available_spot`. -/
def probe_for_available_spot (m : HashMap K V) (hashf : K → Nat) (key : K) :
    Res (Option Nat) :=
  let N := m.entries.length
  if m.len ≥ N then .ok none
  else
    let spot := hashf key % N
    probeAvailGo m.entries key spot spot N

/-- Body of the `loop` in `HashMap::probe_for_existing_spot`.  A full wrap
returns `ok none` (ordinary not-found); this loop has no `panic!`. -/
def probeExistGo (entries : List (HashMapEntry K V)) (key : K) (orig : Nat) :
    Nat → Nat → Res (Option Nat)
  | _, 0 => .fuelOut
  | spot, fuel + 1 =>
    match entries.getD spot .empty with
    | .empty => .ok none
    | .deleted =>
      let spot' := (spot + 1) % entries.length
      if spot' = orig then .ok none
      else probeExistGo entries key orig spot' fuel
    | .occupied k _ =>
      if k = key then .ok (some spot)
      else
        let spot' := (spot + 1) % entries.length
        if spot' = orig then .ok none
        else probeExistGo entries key orig spot' fuel

/-- Mirrors `HashMap::probe_for_existing_spot`. -/
def probe_for_existing_spot (m : HashMap K V) (hashf : K → Nat) (key : K) :
    Res (Option Nat) :=
  if m.len = 0 then .ok none
  else
    let N := m.entries.length
    let spot := hashf key % N
    probeExistGo m.entries key spot spot N

/-- Mirrors `HashMap::insert`; returns the updated map together with the
`bool` result. -/
def insert (m : HashMap K V) (hashf : K → Nat) (key : K) (val : V) :
    Res (HashMap K V × Bool) :=
  match m.probe_for_available_spot hashf key with
  | .ok (some spot) =>
    .ok ({ entries := m.entries.set spot (.occupied key val), len := m.len + 1 }, true)
  | .ok none => .ok (m, false)
  | .panicked => .panicked
  | .fuelOut => .fuelOut

/-- Mirrors `HashMap::remove` (`entries[spot].take()` replaces the entry by
`Deleted` and converts the old entry `.into()` an `Option<V>`). -/
def remove (m : HashMap K V) (hashf : K → Nat) (key : K) :
    Res (HashMap K V × Option V) :=
  match m.probe_for_existing_spot hashf key with
  | .ok (some spot) =>
    .ok ({ entries := m.entries.set spot .deleted, len := m.len - 1 },
      match m.entries.getD spot .empty with
      | .occupied _ v => some v
      | _ => none)
  | .ok none => .ok (m, none)
  | .panicked => .panicked
  | .fuelOut => .fuelOut

/-- Mirrors `HashMap::get` (the `as_ref().into()` chain yields the value when
the probed slot is occupied). -/
def get (m : HashMap K V) (hashf : K → Nat) (key : K) : Res (Option V) :=
  match m.probe_for_existing_spot hashf key with
  | .ok (some spot) =>
    .ok (match m.entries.getD spot .empty with
      | .occupied _ v => some v
      | _ => none)
  | .ok none => .ok none
  | .panicked => .panicked
  | .fuelOut => .fuelOut

/-- Mirrors `HashMap::contains_key` (`probe_for_existing_spot(key).is_some()`). -/
def contains_key (m : HashMap K V) (hashf : K → Nat) (key : K) : Res Bool :=
  match m.probe_for_existing_spot hashf key with
  | .ok r => .ok r.isSome
  | .panicked => .panicked
  | .fuelOut => .fuelOut

/-- Number of `Occupied` slots of the table. -/
def occCount (m : HashMap K V) : Nat :=
  m.entries.countP (fun e => e.isOccupied)

/-- Key `k` is held by some `Occupied` slot. -/
def KeyPresent (m : HashMap K V) (k : K) : Prop :=
  ∃ i v, m.entries.getD i .empty = .occupied k v

/-- At most one `Occupied` slot holds any given key. -/
def AtMostOneKey (m : HashMap K V) : Prop :=
  ∀ i j k v v', i < m.entries.length → j < m.entries.length →
    m.entries.getD i .empty = .occupied k v →
    m.entries.getD j .empty = .occupied k v' → i = j

/-- States reachable from `HashMap::new` by the mutating public operations
(`insert`, `remove`); `get`/`contains_key` take `&self` and do not mutate. -/
inductive Reachable (hashf : K → Nat) (N : Nat) : HashMap K V → Prop where
  | new : Reachable hashf N (new K V N)
  | insert {m m' : HashMap K V} {k : K} {v : V} {b : Bool} :
      Reachable hashf N m → m.insert hashf k v = .ok (m', b) → Reachable hashf N m'
  | remove {m m' : HashMap K V} {k : K} {r : Option V} :
      Reachable hashf N m → m.remove hashf k = .ok (m', r) → Reachable hashf N m'

/-- States reachable when, additionally, `insert` is never called with a key
that is already present in the table. -/
inductive ReachableNoDupIns (hashf : K → Nat) (N : Nat) : HashMap K V → Prop where
  | new : ReachableNoDupIns hashf N (new K V N)
  | insert {m m' : HashMap K V} {k : K} {v : V} {b : Bool} :
      ReachableNoDupIns hashf N m → ¬ KeyPresent m k →
      m.insert hashf k v = .ok (m', b) → ReachableNoDupIns hashf N m'
  | remove {m m' : HashMap K V} {k : K} {r : Option V} :
      ReachableNoDupIns hashf N m → m.remove hashf k = .ok (m', r) →
      ReachableNoDupIns hashf N m'

/-- Slot `x` of a backing array is `Occupied` by a key other than `key`. -/
def OccOther (entries : List (HashMapEntry K V)) (key : K) (x : Nat) : Prop :=
  ∃ k' v', entries.getD x .empty = .occupied k' v' ∧ k' ≠ key

/-- Folding `insert` over a list of key/value pairs, conjoining the boolean
results (used to state the capacity property). -/
def insertList (m : HashMap K V) (hashf : K → Nat) :
    List (K × V) → Res (HashMap K V × Bool)
  | [] => .ok (m, true)
  | (k, v) :: rest =>
    match m.insert hashf k v with
    | .ok (m', b) =>
      match insertList m' hashf rest with
      | .ok (m'', b') => .ok (m'', b && b')
      | .panicked => .panicked
      | .fuelOut => .fuelOut
    | .panicked => .panicked
    | .fuelOut => .fuelOut

end HashMap

/-- Mirrors `HashSetEntry<T>` from `src/hash_set.rs`. -/
inductive HashSetEntry (T : Type) where
  | occupied (elem : T)
  | empty
  | deleted
deriving DecidableEq, Repr

/-- True on `occupied` entries. -/
def HashSetEntry.isOccupied {T : Type} : HashSetEntry T → Bool
  | .occupied _ => true
  | _ => false

/-- Mirrors `HashSet<T, N, H>` from `src/hash_set.rs` (backing array `arr`). -/
structure HashSet (T : Type) where
  arr : List (HashSetEntry T)
  len : Nat
deriving DecidableEq, Repr

namespace HashSet

variable {T : Type} [DecidableEq T]

/-- Mirrors `HashSet::new`. -/
def new (T : Type) (N : Nat) : HashSet T :=
  { arr := List.replicate N .empty, len := 0 }

/-- Body of the `loop` in `HashSet::probe_for_available_spot`. -/
def probeAvailGo (arr : List (HashSetEntry T)) (elem : T) (orig : Nat) :
    Nat → Nat → Res (Option Nat)
  | _, 0 => .fuelOut
  | spot, fuel + 1 =>
    match arr.getD spot .empty with
    | .empty => .ok (some spot)
    | .deleted => .ok (some spot)
    | .occupied el =>
      if el = elem then .ok none
      else
        let spot' := (spot + 1) % arr.length
        if spot' = orig then .panicked
        else probeAvailGo arr elem orig spot' fuel

/-- Mirrors `HashSet::probe_for_available_spot`. -/
def probe_for_available_spot (s : HashSet T) (hashf : T → Nat) (elem : T) :
    Res (Option Nat) :=
  let N := s.arr.length
  if s.len ≥ N then .ok none
  else
    let spot := hashf elem % N
    probeAvailGo s.arr elem spot spot N

/-- Body of the `loop` in `HashSet::probe_for_existing_spot`. -/
def probeExistGo (arr : List (HashSetEntry T)) (elem : T) (orig : Nat) :
    Nat → Nat → Res (Option Nat)
  | _, 0 => .fuelOut
  | spot, fuel + 1 =>
    match arr.getD spot .empty with
    | .empty => .ok none
    | .deleted =>
      let spot' := (spot + 1) % arr.length
      if spot' = orig then .ok none
      else probeExistGo arr elem orig spot' fuel
    | .occupied el =>
      if el = elem then .ok (some spot)
      else
        let spot' := (spot + 1) % arr.length
        if spot' = orig then .ok none
        else probeExistGo arr elem orig spot' fuel

/-- Mirrors `HashSet::probe_for_existing_spot`. -/
def probe_for_existing_spot (s : HashSet T) (hashf : T → Nat) (elem : T) :
    Res (Option Nat) :=
  if s.len = 0 then .ok none
  else
    let N := s.arr.length
    let spot := hashf elem % N
    probeExistGo s.arr elem spot spot N

/-- Mirrors `HashSet::insert`. -/
def insert (s : HashSet T) (hashf : T → Nat) (elem : T) : Res (HashSet T × Bool) :=
  match s.probe_for_available_spot hashf elem with
  | .ok (some spot) =>
    .ok ({ arr := s.arr.set spot (.occupied elem), len := s.len + 1 }, true)
  | .ok none => .ok (s, false)
  | .panicked => .panicked
  | .fuelOut => .fuelOut

/-- Mirrors `HashSet::remove`. -/
def remove (s : HashSet T) (hashf : T → Nat) (elem : T) :
    Res (HashSet T × Option T) :=
  match s.probe_for_existing_spot hashf elem with
  | .ok (some spot) =>
    .ok ({ arr := s.arr.set spot .deleted, len := s.len - 1 },
      match s.arr.getD spot .empty with
      | .occupied el => some el
      | _ => none)
  | .ok none => .ok (s, none)
  | .panicked => .panicked
  | .fuelOut => .fuelOut

/-- Mirrors `HashSet::contains`. -/
def contains (s : HashSet T) (hashf : T → Nat) (elem : T) : Res Bool :=
  match s.probe_for_existing_spot hashf elem with
  | .ok r => .ok r.isSome
  | .panicked => .panicked
  | .fuelOut => .fuelOut

/-- Element `x` is held by some `Occupied` slot. -/
def ElemPresent (s : HashSet T) (x : T) : Prop :=
  ∃ i, s.arr.getD i .empty = .occupied x

/-- At most one `Occupied` slot holds any given element. -/
def AtMostOneElem (s : HashSet T) : Prop :=
  ∀ i j x, i < s.arr.length → j < s.arr.length →
    s.arr.getD i .empty = .occupied x → s.arr.getD j .empty = .occupied x → i = j

/-- Number of `Occupied` slots of the set. -/
def occCount (s : HashSet T) : Nat :=
  s.arr.countP (fun e => e.isOccupied)

/-- States reachable from `HashSet::new` by the mutating public operations. -/
inductive Reachable (hashf : T → Nat) (N : Nat) : HashSet T → Prop where
  | new : Reachable hashf N (new T N)
  | insert {s s' : HashSet T} {x : T} {b : Bool} :
      Reachable hashf N s → s.insert hashf x = .ok (s', b) → Reachable hashf N s'
  | remove {s s' : HashSet T} {x : T} {r : Option T} :
      Reachable hashf N s → s.remove hashf x = .ok (s', r) → Reachable hashf N s'

/-- Slot `x` of a backing array is `Occupied` by an element other than
`elem`. -/
def OccOther (arr : List (HashSetEntry T)) (elem : T) (x : Nat) : Prop :=
  ∃ e', arr.getD x .empty = .occupied e' ∧ e' ≠ elem

/-- States reachable when `insert` is never called with an element that is
already present in the set. -/
inductive ReachableNoDupIns (hashf : T → Nat) (N : Nat) : HashSet T → Prop where
  | new : ReachableNoDupIns hashf N (new T N)
  | insert {s s' : HashSet T} {x : T} {b : Bool} :
      ReachableNoDupIns hashf N s → ¬ ElemPresent s x →
      s.insert hashf x = .ok (s', b) → ReachableNoDupIns hashf N s'
  | remove {s s' : HashSet T} {x : T} {r : Option T} :
      ReachableNoDupIns hashf N s → s.remove hashf x = .ok (s', r) →
      ReachableNoDupIns hashf N s'

end HashSet

/-- Mirrors `SearchableList<T, N>` from `src/searchable_list.rs`.  `backing`
holds `Some((handle, value))` pairs sorted by value on `[0, len)`; `indices`
maps a handle `i` to the position `j` with `backing[j] = Some((i, _))`. -/
structure SearchableList (T : Type) where
  backing : List (Option (Nat × T))
  indices : List (Option Nat)
  len : Nat
deriving DecidableEq, Repr

namespace SearchableList

variable {T : Type} [LinearOrder T]

/-- Mirrors `SearchableList::new`. -/
def new (T : Type) (N : Nat) : SearchableList T :=
  { backing := List.replicate N none, indices := List.replicate N none, len := 0 }

/-- Mirrors `SearchableList::search_for_new_spot`.  The Rust `el.1.cmp(elem)`
is `cmp el.2 elem` (comparison of the stored value against the target). -/
def search_for_new_spot (s : SearchableList T) (elem : T)
    (start_j end_j : Nat) : Res Nat :=
  if _h0 : end_j - start_j = 0 then
    if s.len ≠ 0 then .panicked else .ok 0
  else if _h1 : end_j - start_j = 1 then
    match s.backing.getD start_j none with
    | some el =>
      match cmp el.2 elem with
      | .eq => .ok end_j
      | .lt => .ok end_j
      | .gt => if start_j = 0 then .ok start_j else .panicked
    | none => .panicked
  else
    let midpoint := start_j + (end_j - start_j) / 2
    match s.backing.getD midpoint none with
    | some el =>
      match cmp el.2 elem with
      | .lt => search_for_new_spot s elem midpoint end_j
      | .eq => search_for_new_spot s elem midpoint end_j
      | .gt => search_for_new_spot s elem start_j midpoint
    | none => .panicked
termination_by end_j - start_j
decreasing_by all_goals omega

/-- Mirrors `SearchableList::search_for_existing_spot_by`.  Note that the
`diff == 1` arm destructures **both** `backing[start_j]` and
`backing[end_j]`; if either is `None` the `else` arm panics. -/
def search_for_existing_spot_by (s : SearchableList T) (f : T → Ordering)
    (start_j end_j : Nat) : Res (Option Nat) :=
  if _h0 : end_j - start_j = 0 then .ok none
  else if _h1 : end_j - start_j = 1 then
    match s.backing.getD start_j none, s.backing.getD end_j none with
    | some se, some ee =>
      if f se.2 = .eq then .ok (some se.1)
      else if f ee.2 = .eq then .ok (some ee.1)
      else .ok none
    | some _, none => .panicked
    | none, _ => .panicked
  else
    let midpoint := start_j + (end_j - start_j) / 2
    match s.backing.getD midpoint none with
    | some mel =>
      match f mel.2 with
      | .eq => .ok (some mel.1)
      | .lt => search_for_existing_spot_by s f midpoint end_j
      | .gt => search_for_existing_spot_by s f start_j midpoint
    | none => .panicked
termination_by end_j - start_j
decreasing_by all_goals omega

/-- Mirrors `SearchableList::find`. -/
def find (s : SearchableList T) (elem : T) : Res (Option Nat) :=
  s.search_for_existing_spot_by (fun el => cmp el elem) 0 s.len

/-- The shift loop `for j in (spot..len).rev()` inside `SearchableList::push`:
`count` iterations remain and the current index is `j = spot + count - 1`.
Each iteration takes `backing[j]` (panicking on `None`), checks the matching
`indices` entry (panicking on mismatch, silently skipping a `None`) and moves
the element to `backing[j + 1]`. -/
def pushShiftGo (backing : List (Option (Nat × T))) (indices : List (Option Nat))
    (spot : Nat) : Nat → Res (List (Option (Nat × T)) × List (Option Nat))
  | 0 => .ok (backing, indices)
  | c + 1 =>
    let j := spot + c
    match backing.getD j none with
    | none => .panicked
    | some el =>
      let backing' := (backing.set j none).set (j + 1) (some el)
      match indices.getD el.1 none with
      | none => pushShiftGo backing' indices spot c
      | some j2 =>
        if j2 ≠ j then .panicked
        else pushShiftGo backing' (indices.set el.1 (some (j + 1))) spot c

/-- Mirrors `SearchableList::push`; `panic!` on a full list or on broken
internal bookkeeping is the `panicked` outcome. -/
def push (s : SearchableList T) (elem : T) : Res (SearchableList T) :=
  let N := s.backing.length
  if s.len ≥ N then .panicked
  else
    match s.search_for_new_spot elem 0 s.len with
    | .ok spot =>
      match (if spot ≠ s.len then pushShiftGo s.backing s.indices spot (s.len - spot)
             else .ok (s.backing, s.indices)) with
      | .ok (b, ind) =>
        .ok { backing := b.set spot (some (s.len, elem)),
              indices := ind.set s.len (some spot),
              len := s.len + 1 }
      | .panicked => .panicked
      | .fuelOut => .fuelOut
    | .panicked => .panicked
    | .fuelOut => .fuelOut

/-- The shift loop `for j2 in j..self.len - 1` inside `SearchableList::pop`:
`cur` is the current `j2` and `count` iterations remain.  Each iteration
takes `backing[j2 + 1]`; if it is an element whose `indices` entry exists,
that entry is decremented and the element is re-stored at `backing[j2]`
(otherwise the iteration silently does nothing beyond the take). -/
def popShiftGo (backing : List (Option (Nat × T))) (indices : List (Option Nat))
    (cur : Nat) : Nat → List (Option (Nat × T)) × List (Option Nat)
  | 0 => (backing, indices)
  | c + 1 =>
    match backing.getD (cur + 1) none with
    | none => popShiftGo backing indices (cur + 1) c
    | some el =>
      match indices.getD el.1 none with
      | none => popShiftGo (backing.set (cur + 1) none) indices (cur + 1) c
      | some v =>
        popShiftGo ((backing.set (cur + 1) none).set cur (some el))
          (indices.set el.1 (some (v - 1))) (cur + 1) c

/-- Mirrors `SearchableList::pop`; removes the element holding handle
`len - 1`. -/
def pop (s : SearchableList T) : Res (SearchableList T × Option T) :=
  if s.len = 0 then .ok (s, none)
  else
    match s.indices.getD (s.len - 1) none with
    | none => .panicked
    | some j =>
      match s.backing.getD j none with
      | none => .panicked
      | some (i, elem) =>
        if i ≠ s.len - 1 then .panicked
        else
          let p := popShiftGo (s.backing.set j none) s.indices j (s.len - 1 - j)
          .ok ({ backing := p.1.set (s.len - 1) none,
                 indices := p.2.set (s.len - 1) none,
                 len := s.len - 1 }, some elem)

/-- The values stored on `backing[0..len)` are pairwise non-decreasing. -/
def SortedBacking (s : SearchableList T) : Prop :=
  ∀ j j' hj v hj' v', j < j' → j' < s.len →
    s.backing.getD j none = some (hj, v) →
    s.backing.getD j' none = some (hj', v') → v ≤ v'

/-- Full internal invariant of a `SearchableList` of capacity `N`: the live
prefix of `backing` and the live handles `0..len` point at each other
bijectively, everything past the live range is `None`, and the live values
are sorted. -/
structure Inv (N : Nat) (s : SearchableList T) : Prop where
  backLen : s.backing.length = N
  idxLen : s.indices.length = N
  lenLe : s.len ≤ N
  backLive : ∀ j, j < s.len → ∃ hj v, s.backing.getD j none = some (hj, v) ∧
    hj < s.len ∧ s.indices.getD hj none = some j
  backDead : ∀ j, s.len ≤ j → s.backing.getD j none = none
  idxLive : ∀ hj, hj < s.len → ∃ j v, s.indices.getD hj none = some j ∧
    j < s.len ∧ s.backing.getD j none = some (hj, v)
  idxDead : ∀ hj, s.len ≤ hj → s.indices.getD hj none = none
  sorted : SortedBacking s

/-- States reachable from `SearchableList::new` by (non-panicking) pushes and
pops. -/
inductive Reachable (N : Nat) : SearchableList T → Prop where
  | new : Reachable N (new T N)
  | push {s s' : SearchableList T} {v : T} :
      Reachable N s → s.push v = .ok s' → Reachable N s'
  | pop {s s' : SearchableList T} {r : Option T} :
      Reachable N s → s.pop = .ok (s', r) → Reachable N s'

end SearchableList

/-- Hash function of the `IntCollHasher` used by the repository's collision
tests: every key hashes to `0`. -/
def zeroHash : Nat → Nat := fun _ => 0

/-- State of a `HashMap<u32, u32, 3>` with the all-zero hasher after
`insert(1, 10)`. -/
def cexM1 : HashMap Nat Nat :=
  { entries := [.occupied 1 10, .empty, .empty], len := 1 }

/-- The state `cexM1` after `insert(2, 20)`. -/
def cexM2 : HashMap Nat Nat :=
  { entries := [.occupied 1 10, .occupied 2 20, .empty], len := 2 }

/-- The state `cexM2` after `remove(1)`: a `Deleted` tombstone sits in slot 0,
on the probe path in front of the `Occupied` slot for key 2. -/
def cexM3 : HashMap Nat Nat :=
  { entries := [.deleted, .occupied 2 20, .empty], len := 1 }

/-- The state `cexM3` after `insert(2, 99)`: the availability probe stops at
the slot-0 tombstone before ever reaching the occupied slot for key 2, so the
insert lands there and the table now holds key 2 twice. -/
def cexM4 : HashMap Nat Nat :=
  { entries := [.occupied 2 99, .occupied 2 20, .empty], len := 2 }

/-- State of a `SearchableList<u32, 10>` after `push(1)`. -/
def slP1 : SearchableList Nat :=
  { backing := some (0, 1) :: List.replicate 9 none,
    indices := some 0 :: List.replicate 9 none, len := 1 }

/-- The state `slP1` after `push(3)`. -/
def slP2 : SearchableList Nat :=
  { backing := some (0, 1) :: some (1, 3) :: List.replicate 8 none,
    indices := some 0 :: some 1 :: List.replicate 8 none, len := 2 }

/-- The state `slP2` after `push(2)`. -/
def slP3 : SearchableList Nat :=
  { backing := some (0, 1) :: some (2, 2) :: some (1, 3) :: List.replicate 7 none,
    indices := some 0 :: some 2 :: some 1 :: List.replicate 7 none, len := 3 }

/-- The state `slP3` after `push(0)`: values sorted as `[0, 1, 2, 3]` with
handle-to-position map `[1, 3, 2, 0]`. -/
def slP4 : SearchableList Nat :=
  { backing := some (3, 0) :: some (0, 1) :: some (2, 2) :: some (1, 3) ::
      List.replicate 6 none,
    indices := some 1 :: some 3 :: some 2 :: some 0 :: List.replicate 6 none,
    len := 4 }

/-- The state `slP4` after `pop()` (the element with handle 3, value 0, is
removed). -/
def slP5 : SearchableList Nat :=
  { backing := some (0, 1) :: some (2, 2) :: some (1, 3) :: List.replicate 7 none,
    indices := some 0 :: some 2 :: some 1 :: List.replicate 7 none, len := 3 }

/-- State of a `HashMap<u32, u32, 50>` (all-zero hasher) after inserting keys
1..4 (values equal to keys). -/
def c4m4 : HashMap Nat Nat :=
  { entries := ((((List.replicate 50 HashMapEntry.empty).set 0
      (.occupied 1 1)).set 1 (.occupied 2 2)).set 2 (.occupied 3 3)).set 3
      (.occupied 4 4),
    len := 4 }

/-- The state `c4m4` after `remove(2)` (slot 1 becomes `Deleted`). -/
def c4m5 : HashMap Nat Nat :=
  { entries := ((((List.replicate 50 HashMapEntry.empty).set 0
      (.occupied 1 1)).set 1 .deleted).set 2 (.occupied 3 3)).set 3
      (.occupied 4 4),
    len := 3 }

/-- The state `c4m5` after `remove(1)` (slot 0 becomes `Deleted` too). -/
def c4m6 : HashMap Nat Nat :=
  { entries := ((((List.replicate 50 HashMapEntry.empty).set 0
      .deleted).set 1 .deleted).set 2 (.occupied 3 3)).set 3 (.occupied 4 4),
    len := 2 }

/-- The state `c4m6` after `insert(5, 5)` (slot 0, the earliest reusable slot
on the probe path, is reused). -/
def c4m7 : HashMap Nat Nat :=
  { entries := ((((List.replicate 50 HashMapEntry.empty).set 0
      (.occupied 5 5)).set 1 .deleted).set 2 (.occupied 3 3)).set 3
      (.occupied 4 4),
    len := 3 }

theorem getD_of_length_le {α} {l : List α} {i : Nat} {d : α} (h : l.length ≤ i) :
    l.getD i d = d := by
  simp [List.getD_eq_getElem?_getD, List.getElem?_eq_none h]

theorem getD_eq_getElem {α} {l : List α} {i : Nat} {d : α} (h : i < l.length) :
    l.getD i d = l[i] := by
  simp [List.getD_eq_getElem?_getD, List.getElem?_eq_getElem h]

theorem getD_set_self {α} {l : List α} {i : Nat} {d a : α} (h : i < l.length) :
    (l.set i a).getD i d = a := by
  simp [List.getD_eq_getElem?_getD, List.getElem?_set_self h]

theorem getD_set_ne {α} {l : List α} {i j : Nat} {d a : α} (h : i ≠ j) :
    (l.set i a).getD j d = l.getD j d := by
  simp [List.getD_eq_getElem?_getD, List.getElem?_set_ne h]

theorem probeStep_dist_zero {L spot orig : Nat} (hs : spot < L) (ho : orig < L)
    (hk : (orig + L - (spot + 1)) % L = 0) : (spot + 1) % L = orig := by
  have hL0 : 0 < L := Nat.zero_lt_of_lt hs
  obtain ⟨c, hc⟩ := Nat.dvd_of_mod_eq_zero hk
  match c with
  | 0 =>
    have h1 : spot + 1 = L := by omega
    have h2 : orig = 0 := by omega
    rw [h1, Nat.mod_self, h2]
  | 1 =>
    have h1 : orig = spot + 1 := by omega
    rw [← h1, Nat.mod_eq_of_lt ho]
  | c + 2 =>
    have h2 : L * 2 ≤ L * (c + 2) := Nat.mul_le_mul_left _ (by omega)
    omega

theorem probeStep_dist_succ {L spot orig : Nat} (hs : spot < L) (ho : orig < L)
    (hk : 1 ≤ (orig + L - (spot + 1)) % L) :
    (orig + L - ((spot + 1) % L + 1)) % L + 1 = (orig + L - (spot + 1)) % L := by
  have hL0 : 0 < L := Nat.zero_lt_of_lt hs
  rcases Nat.lt_or_ge (spot + 1) L with h1 | h1
  · rw [Nat.mod_eq_of_lt h1]
    have hq := Nat.div_add_mod (orig + L - (spot + 1)) L
    have hklt : (orig + L - (spot + 1)) % L < L := Nat.mod_lt _ hL0
    have hrw : orig + L - (spot + 1 + 1) =
        L * ((orig + L - (spot + 1)) / L) + ((orig + L - (spot + 1)) % L - 1) := by
      omega
    rw [hrw, Nat.mul_add_mod, Nat.mod_eq_of_lt (by omega)]
    omega
  · have h2 : spot + 1 = L := by omega
    rw [h2] at hk ⊢
    rw [Nat.mod_self]
    have ho1 : 1 ≤ orig := by
      have h4 : orig + L - L = orig := by omega
      rw [h4] at hk
      calc 1 ≤ orig % L := hk
        _ ≤ orig := Nat.mod_le _ _
    have h3 : orig + L - (0 + 1) = (orig - 1) + L := by omega
    have h4 : orig + L - L = orig := by omega
    rw [h3, h4, Nat.add_mod_right, Nat.mod_eq_of_lt (by omega),
      Nat.mod_eq_of_lt ho]
    omega

theorem mod_shift {L a b : Nat} : (a % L + b) % L = (a + b) % L := by
  conv_lhs => rw [Nat.add_mod]
  conv_rhs => rw [Nat.add_mod]
  rw [Nat.mod_mod_of_dvd _ dvd_rfl]

theorem mod_shift_right {L a b : Nat} : (a + b % L) % L = (a + b) % L := by
  conv_lhs => rw [Nat.add_mod]
  conv_rhs => rw [Nat.add_mod]
  rw [Nat.mod_mod_of_dvd _ dvd_rfl]

theorem mod_add_ne {L orig j : Nat} (ho : orig < L) (hj0 : 0 < j) (hjL : j < L) :
    (orig + j) % L ≠ orig := by
  intro h
  have h1 : (orig + j) % L = (orig + 0) % L := by
    rw [h, Nat.add_zero, Nat.mod_eq_of_lt ho]
  have h2 : j % L = 0 % L := Nat.ModEq.add_left_cancel' orig h1
  rw [Nat.mod_eq_of_lt hjL, Nat.zero_mod] at h2
  omega

theorem mod_offset_inj {L orig i d : Nat} (hi : i < L) (hd : d < L)
    (h : (orig + i) % L = (orig + d) % L) : i = d := by
  have h2 : i % L = d % L := Nat.ModEq.add_left_cancel' orig h
  rw [Nat.mod_eq_of_lt hi, Nat.mod_eq_of_lt hd] at h2
  exact h2

theorem countP_replicate_not {α : Type} (p : α → Bool) (a : α) (hp : p a = false) :
    ∀ n, List.countP p (List.replicate n a) = 0 := by
  intro n
  induction n with
  | zero => rfl
  | succ n ih => rw [List.replicate_succ, List.countP_cons, ih, hp]; rfl

theorem getD_replicate {α : Type} {n x : Nat} {a : α} :
    (List.replicate n a).getD x a = a := by
  rw [List.getD_eq_getElem?_getD, List.getElem?_replicate]
  split <;> rfl

theorem mod_surj_on {L orig j : Nat} (ho : orig < L) (hj : j < L) :
    ∃ i, i < L ∧ (orig + i) % L = j := by
  refine ⟨(j + L - orig) % L, Nat.mod_lt _ (Nat.zero_lt_of_lt hj), ?_⟩
  rw [mod_shift_right]
  have h1 : orig + (j + L - orig) = j + L := by omega
  rw [h1, Nat.add_mod_right, Nat.mod_eq_of_lt hj]

namespace HashMap

variable {K V : Type} [DecidableEq K]

theorem probeAvailGo_ne_fuelOut {entries : List (HashMapEntry K V)} {key : K}
    {orig : Nat} (ho : orig < entries.length) :
    ∀ fuel spot, spot < entries.length →
      (orig + entries.length - (spot + 1)) % entries.length + 1 ≤ fuel →
      probeAvailGo entries key orig spot fuel ≠ .fuelOut := by
  intro fuel
  induction fuel with
  | zero => intro spot _ hb; exact absurd hb (by omega)
  | succ f ih =>
    intro spot hs hb
    have hL0 : 0 < entries.length := Nat.zero_lt_of_lt hs
    simp only [probeAvailGo]
    cases hE : entries.getD spot .empty with
    | empty => simp
    | deleted => simp
    | occupied k v =>
      by_cases hk : k = key
      · simp [hk]
      · simp only [if_neg hk]
        by_cases hw : (spot + 1) % entries.length = orig
        · simp [hw]
        · simp only [if_neg hw]
          apply ih
          · exact Nat.mod_lt _ hL0
          · have hk1 : 1 ≤ (orig + entries.length - (spot + 1)) % entries.length := by
              by_contra hcon
              exact hw (probeStep_dist_zero hs ho (by omega))
            have hstep := probeStep_dist_succ hs ho hk1
            omega

theorem probeAvailGo_found {entries : List (HashMapEntry K V)} {key : K}
    {orig : Nat} :
    ∀ fuel spot s, spot < entries.length →
      probeAvailGo entries key orig spot fuel = .ok (some s) →
      ∃ d, d < fuel ∧ s = (spot + d) % entries.length ∧
        (∀ i, i < d → OccOther entries key ((spot + i) % entries.length)) ∧
        (entries.getD s .empty).isOccupied = false ∧ s < entries.length := by
  intro fuel
  induction fuel with
  | zero => intro spot s _ h; simp [probeAvailGo] at h
  | succ f ih =>
    intro spot s hs h
    have hL0 : 0 < entries.length := Nat.zero_lt_of_lt hs
    simp only [probeAvailGo] at h
    split at h
    · rename_i hE
      simp only [Res.ok.injEq, Option.some.injEq] at h
      subst h
      exact ⟨0, by omega, by rw [Nat.add_zero, Nat.mod_eq_of_lt hs],
        fun i hi => absurd hi (by omega), by rw [hE]; rfl, hs⟩
    · rename_i hE
      simp only [Res.ok.injEq, Option.some.injEq] at h
      subst h
      exact ⟨0, by omega, by rw [Nat.add_zero, Nat.mod_eq_of_lt hs],
        fun i hi => absurd hi (by omega), by rw [hE]; rfl, hs⟩
    · rename_i k v hE
      split at h
      · simp at h
      · rename_i hk
        split at h
        · simp at h
        · rename_i hw
          obtain ⟨d, hd, hse, hpath, hocc, hsL⟩ :=
            ih ((spot + 1) % entries.length) s (Nat.mod_lt _ hL0) h
          refine ⟨d + 1, by omega, ?_, ?_, hocc, hsL⟩
          · rw [hse, mod_shift]
            congr 1
            omega
          · intro i hi
            match i with
            | 0 =>
              rw [Nat.add_zero, Nat.mod_eq_of_lt hs]
              exact ⟨k, v, hE, hk⟩
            | i + 1 =>
              have hp := hpath i (by omega)
              rw [mod_shift] at hp
              have harr : spot + 1 + i = spot + (i + 1) := by omega
              rwa [harr] at hp

theorem probeAvailGo_panicked {entries : List (HashMapEntry K V)} {key : K}
    {orig : Nat} :
    ∀ fuel spot, spot < entries.length →
      probeAvailGo entries key orig spot fuel = .panicked →
      ∃ d, d < fuel ∧ (spot + d + 1) % entries.length = orig ∧
        ∀ i, i ≤ d → OccOther entries key ((spot + i) % entries.length) := by
  intro fuel
  induction fuel with
  | zero => intro spot _ h; simp [probeAvailGo] at h
  | succ f ih =>
    intro spot hs h
    have hL0 : 0 < entries.length := Nat.zero_lt_of_lt hs
    simp only [probeAvailGo] at h
    split at h
    · simp at h
    · simp at h
    · rename_i k v hE
      split at h
      · simp at h
      · rename_i hk
        split at h
        · rename_i hw
          refine ⟨0, by omega, by rwa [Nat.add_zero], ?_⟩
          intro i hi
          have hi0 : i = 0 := by omega
          subst hi0
          rw [Nat.add_zero, Nat.mod_eq_of_lt hs]
          exact ⟨k, v, hE, hk⟩
        · rename_i hw
          obtain ⟨d, hd, hwrap, hpath⟩ :=
            ih ((spot + 1) % entries.length) (Nat.mod_lt _ hL0) h
          refine ⟨d + 1, by omega, ?_, ?_⟩
          · rw [← hwrap]
            have h1 : (spot + 1) % entries.length + d + 1 =
                (spot + 1) % entries.length + (d + 1) := by omega
            rw [h1, mod_shift]
            congr 1
            omega
          · intro i hi
            match i with
            | 0 =>
              rw [Nat.add_zero, Nat.mod_eq_of_lt hs]
              exact ⟨k, v, hE, hk⟩
            | i + 1 =>
              have hp := hpath i (by omega)
              rw [mod_shift] at hp
              have harr : spot + 1 + i = spot + (i + 1) := by omega
              rwa [harr] at hp

theorem probeAvailGo_dup {entries : List (HashMapEntry K V)} {key : K}
    {orig : Nat} {w : V} :
    ∀ d fuel spot, spot < entries.length → d < fuel →
      (∀ i, 0 < i → i ≤ d → (spot + i) % entries.length ≠ orig) →
      (∀ i, i < d → OccOther entries key ((spot + i) % entries.length)) →
      entries.getD ((spot + d) % entries.length) .empty = .occupied key w →
      probeAvailGo entries key orig spot fuel = .ok none := by
  intro d
  induction d with
  | zero =>
    intro fuel spot hs hf _ _ htarget
    rw [Nat.add_zero, Nat.mod_eq_of_lt hs] at htarget
    match fuel, hf with
    | fuel + 1, _ =>
      simp only [probeAvailGo]
      split
      · rename_i heq; rw [htarget] at heq; cases heq
      · rename_i heq; rw [htarget] at heq; cases heq
      · rename_i k v heq
        rw [htarget] at heq
        injection heq with h1 h2
        rw [if_pos h1.symm]
  | succ d ih =>
    intro fuel spot hs hf hwrap hpath htarget
    have hL0 : 0 < entries.length := Nat.zero_lt_of_lt hs
    obtain ⟨k', v', hE, hk'⟩ : OccOther entries key spot := by
      have h0 := hpath 0 (by omega)
      rwa [Nat.add_zero, Nat.mod_eq_of_lt hs] at h0
    match fuel, hf with
    | fuel + 1, hf =>
      simp only [probeAvailGo]
      split
      · rename_i heq; rw [hE] at heq; cases heq
      · rename_i heq; rw [hE] at heq; cases heq
      · rename_i k v heq
        rw [hE] at heq
        injection heq with h1 h2
        subst h1
        rw [if_neg hk', if_neg (hwrap 1 (by omega) (by omega))]
        apply ih fuel _ (Nat.mod_lt _ hL0) (by omega)
        · intro i hi0 hid
          rw [mod_shift]
          have harr : spot + 1 + i = spot + (i + 1) := by omega
          rw [harr]
          exact hwrap (i + 1) (by omega) (by omega)
        · intro i hid
          rw [mod_shift]
          have harr : spot + 1 + i = spot + (i + 1) := by omega
          rw [harr]
          exact hpath (i + 1) (by omega)
        · rw [mod_shift]
          have harr : spot + 1 + d = spot + (d + 1) := by omega
          rw [harr]
          exact htarget

theorem probeExistGo_found {entries : List (HashMapEntry K V)} {key : K}
    {orig : Nat} :
    ∀ fuel spot s, probeExistGo entries key orig spot fuel = .ok (some s) →
      s < entries.length ∧ ∃ v, entries.getD s .empty = .occupied key v := by
  intro fuel
  induction fuel with
  | zero => intro spot s h; simp [probeExistGo] at h
  | succ f ih =>
    intro spot s h
    simp only [probeExistGo] at h
    split at h
    · simp at h
    · split at h
      · simp at h
      · exact ih _ _ h
    · rename_i k v hE
      split at h
      · rename_i hk
        simp only [Res.ok.injEq, Option.some.injEq] at h
        subst h
        subst hk
        refine ⟨?_, v, hE⟩
        by_contra hcon
        rw [getD_of_length_le (by omega)] at hE
        cases hE
      · split at h
        · simp at h
        · exact ih _ _ h

theorem probeExistGo_walk {entries : List (HashMapEntry K V)} {key : K}
    {orig : Nat} {w : V} :
    ∀ d fuel spot, spot < entries.length → d < fuel →
      (∀ i, 0 < i → i ≤ d → (spot + i) % entries.length ≠ orig) →
      (∀ i, i < d → OccOther entries key ((spot + i) % entries.length)) →
      entries.getD ((spot + d) % entries.length) .empty = .occupied key w →
      probeExistGo entries key orig spot fuel =
        .ok (some ((spot + d) % entries.length)) := by
  intro d
  induction d with
  | zero =>
    intro fuel spot hs hf _ _ htarget
    rw [Nat.add_zero, Nat.mod_eq_of_lt hs] at htarget ⊢
    match fuel, hf with
    | fuel + 1, _ =>
      simp only [probeExistGo]
      split
      · rename_i heq; rw [htarget] at heq; cases heq
      · rename_i heq; rw [htarget] at heq; cases heq
      · rename_i k v heq
        rw [htarget] at heq
        injection heq with h1 h2
        rw [if_pos h1.symm]
  | succ d ih =>
    intro fuel spot hs hf hwrap hpath htarget
    have hL0 : 0 < entries.length := Nat.zero_lt_of_lt hs
    obtain ⟨k', v', hE, hk'⟩ : OccOther entries key spot := by
      have h0 := hpath 0 (by omega)
      rwa [Nat.add_zero, Nat.mod_eq_of_lt hs] at h0
    match fuel, hf with
    | fuel + 1, hf =>
      have hshift : ∀ i, ((spot + 1) % entries.length + i) % entries.length =
          (spot + (i + 1)) % entries.length := by
        intro i
        rw [mod_shift]
        congr 1
        omega
      have hgoal : (spot + (d + 1)) % entries.length =
          ((spot + 1) % entries.length + d) % entries.length := (hshift d).symm
      rw [hgoal]
      simp only [probeExistGo]
      split
      · rename_i heq; rw [hE] at heq; cases heq
      · rename_i heq; rw [hE] at heq; cases heq
      · rename_i k v heq
        rw [hE] at heq
        injection heq with h1 h2
        subst h1
        rw [if_neg hk', if_neg (hwrap 1 (by omega) (by omega))]
        apply ih fuel _ (Nat.mod_lt _ hL0) (by omega)
        · intro i hi0 hid
          rw [hshift i]
          exact hwrap (i + 1) (by omega) (by omega)
        · intro i hid
          rw [hshift i]
          exact hpath (i + 1) (by omega)
        · rw [hshift d]
          exact htarget

theorem probeExistGo_ne_panicked {entries : List (HashMapEntry K V)} {key : K}
    {orig : Nat} :
    ∀ fuel spot, probeExistGo entries key orig spot fuel ≠ .panicked := by
  intro fuel
  induction fuel with
  | zero => intro spot h; simp [probeExistGo] at h
  | succ f ih =>
    intro spot h
    simp only [probeExistGo] at h
    split at h
    · simp at h
    · split at h
      · simp at h
      · exact ih _ h
    · split at h
      · simp at h
      · split at h
        · simp at h
        · exact ih _ h

theorem probeExistGo_ne_fuelOut {entries : List (HashMapEntry K V)} {key : K}
    {orig : Nat} (ho : orig < entries.length) :
    ∀ fuel spot, spot < entries.length →
      (orig + entries.length - (spot + 1)) % entries.length + 1 ≤ fuel →
      probeExistGo entries key orig spot fuel ≠ .fuelOut := by
  intro fuel
  induction fuel with
  | zero => intro spot _ hb; exact absurd hb (by omega)
  | succ f ih =>
    intro spot hs hb
    have hL0 : 0 < entries.length := Nat.zero_lt_of_lt hs
    have hnext : (spot + 1) % entries.length ≠ orig →
        probeExistGo entries key orig ((spot + 1) % entries.length) f ≠
          .fuelOut := by
      intro hw
      apply ih _ (Nat.mod_lt _ hL0)
      have hk1 : 1 ≤ (orig + entries.length - (spot + 1)) % entries.length := by
        by_contra hcon
        exact hw (probeStep_dist_zero hs ho (by omega))
      have hstep := probeStep_dist_succ hs ho hk1
      omega
    simp only [probeExistGo]
    split
    · simp
    · split
      · simp
      · rename_i hw; exact hnext hw
    · split
      · simp
      · split
        · simp
        · rename_i hw; exact hnext hw

theorem probeExistGo_allOcc {entries : List (HashMapEntry K V)} {key : K}
    {orig : Nat} (ho : orig < entries.length)
    (hall : ∀ j, j < entries.length → OccOther entries key j) :
    ∀ fuel spot, spot < entries.length →
      (orig + entries.length - (spot + 1)) % entries.length + 1 ≤ fuel →
      probeExistGo entries key orig spot fuel = .ok none := by
  intro fuel
  induction fuel with
  | zero => intro spot _ hb; exact absurd hb (by omega)
  | succ f ih =>
    intro spot hs hb
    have hL0 : 0 < entries.length := Nat.zero_lt_of_lt hs
    obtain ⟨k', v', hE, hk'⟩ := hall spot hs
    simp only [probeExistGo]
    split
    · rfl
    · rename_i heq; rw [hE] at heq; cases heq
    · rename_i k v heq
      rw [hE] at heq
      injection heq with h1 h2
      subst h1
      rw [if_neg hk']
      by_cases hw : (spot + 1) % entries.length = orig
      · rw [if_pos hw]
      · rw [if_neg hw]
        apply ih _ (Nat.mod_lt _ hL0)
        have hk1 : 1 ≤ (orig + entries.length - (spot + 1)) % entries.length := by
          by_contra hcon
          exact hw (probeStep_dist_zero hs ho (by omega))
        have hstep := probeStep_dist_succ hs ho hk1
        omega


theorem probe_for_available_spot_ne_fuelOut (m : HashMap K V) (hashf : K → Nat)
    (key : K) : m.probe_for_available_spot hashf key ≠ .fuelOut := by
  by_cases hlen : m.len ≥ m.entries.length
  · simp [probe_for_available_spot, hlen]
  · simp only [probe_for_available_spot, if_neg hlen]
    have hL0 : 0 < m.entries.length := by omega
    have ho : hashf key % m.entries.length < m.entries.length := Nat.mod_lt _ hL0
    apply probeAvailGo_ne_fuelOut ho _ _ ho
    have harr : hashf key % m.entries.length + m.entries.length -
        (hashf key % m.entries.length + 1) = m.entries.length - 1 := by omega
    rw [harr, Nat.mod_eq_of_lt (by omega)]
    omega

theorem probe_for_existing_spot_ne_fuelOut (m : HashMap K V) (hashf : K → Nat)
    (key : K) (hwf : m.len ≤ m.entries.length) :
    m.probe_for_existing_spot hashf key ≠ .fuelOut := by
  by_cases hlen : m.len = 0
  · simp [probe_for_existing_spot, hlen]
  · simp only [probe_for_existing_spot, if_neg hlen]
    have hL0 : 0 < m.entries.length := by omega
    have ho : hashf key % m.entries.length < m.entries.length := Nat.mod_lt _ hL0
    apply probeExistGo_ne_fuelOut ho _ _ ho
    have harr : hashf key % m.entries.length + m.entries.length -
        (hashf key % m.entries.length + 1) = m.entries.length - 1 := by omega
    rw [harr, Nat.mod_eq_of_lt (by omega)]
    omega

theorem probe_for_existing_spot_ne_panicked (m : HashMap K V) (hashf : K → Nat)
    (key : K) : m.probe_for_existing_spot hashf key ≠ .panicked := by
  by_cases hlen : m.len = 0
  · simp [probe_for_existing_spot, hlen]
  · simp only [probe_for_existing_spot, if_neg hlen]
    exact probeExistGo_ne_panicked _ _

theorem probe_for_existing_spot_found {m : HashMap K V} {hashf : K → Nat}
    {key : K} {s : Nat} (h : m.probe_for_existing_spot hashf key = .ok (some s)) :
    s < m.entries.length ∧ ∃ v, m.entries.getD s .empty = .occupied key v := by
  by_cases hlen : m.len = 0
  · simp [probe_for_existing_spot, hlen] at h
  · simp only [probe_for_existing_spot, if_neg hlen] at h
    exact probeExistGo_found _ _ _ h

theorem probe_for_available_spot_found {m : HashMap K V} {hashf : K → Nat}
    {key : K} {s : Nat} (h : m.probe_for_available_spot hashf key = .ok (some s)) :
    m.len < m.entries.length ∧
      ∃ d, d < m.entries.length ∧ s = (hashf key % m.entries.length + d) % m.entries.length ∧
        (∀ i, i < d →
          OccOther m.entries key ((hashf key % m.entries.length + i) % m.entries.length)) ∧
        (m.entries.getD s .empty).isOccupied = false ∧ s < m.entries.length := by
  by_cases hlen : m.len ≥ m.entries.length
  · simp [probe_for_available_spot, hlen] at h
  · simp only [probe_for_available_spot, if_neg hlen] at h
    have hL0 : 0 < m.entries.length := by omega
    have ho : hashf key % m.entries.length < m.entries.length := Nat.mod_lt _ hL0
    obtain ⟨d, hd, rest⟩ := probeAvailGo_found _ _ _ ho h
    exact ⟨by omega, d, hd, rest⟩


theorem reachable_wf {hashf : K → Nat} {N : Nat} {m : HashMap K V}
    (h : Reachable hashf N m) : m.entries.length = N ∧ m.occCount = m.len := by
  induction h with
  | new =>
    refine ⟨List.length_replicate _ _, ?_⟩
    simp only [occCount, new]
    exact countP_replicate_not _ _ rfl N
  | @insert m m' k v b _ hstep ih =>
    obtain ⟨ihL, ihC⟩ := ih
    rw [insert] at hstep
    cases hp : m.probe_for_available_spot hashf k with
    | ok r =>
      rw [hp] at hstep
      cases r with
      | none =>
        simp only [Res.ok.injEq, Prod.mk.injEq] at hstep
        obtain ⟨hm', hb⟩ := hstep
        subst hm'
        exact ⟨ihL, ihC⟩
      | some spot =>
        simp only [Res.ok.injEq, Prod.mk.injEq] at hstep
        obtain ⟨hm', hb⟩ := hstep
        obtain ⟨hlenlt, d, hd, hse, hpath, hnocc, hsL⟩ :=
          probe_for_available_spot_found hp
        subst hm'
        refine ⟨by simpa [List.length_set] using ihL, ?_⟩
        simp only [occCount, List.countP_set _ _ _ _ hsL]
        rw [← getD_eq_getElem hsL, hnocc]
        have e1 : (if (false : Bool) = true then 1 else 0) = 0 := rfl
        have e2 : (if (HashMapEntry.occupied k v).isOccupied = true then 1 else 0)
            = 1 := rfl
        rw [e1, e2]
        rw [occCount] at ihC
        omega
    | panicked => rw [hp] at hstep; cases hstep
    | fuelOut => rw [hp] at hstep; cases hstep
  | @remove m m' k r _ hstep ih =>
    obtain ⟨ihL, ihC⟩ := ih
    rw [remove] at hstep
    cases hp : m.probe_for_existing_spot hashf k with
    | ok rr =>
      rw [hp] at hstep
      cases rr with
      | none =>
        simp only [Res.ok.injEq, Prod.mk.injEq] at hstep
        obtain ⟨hm', hr⟩ := hstep
        subst hm'
        exact ⟨ihL, ihC⟩
      | some spot =>
        simp only [Res.ok.injEq, Prod.mk.injEq] at hstep
        obtain ⟨hm', hr⟩ := hstep
        obtain ⟨hsL, w, hocc⟩ := probe_for_existing_spot_found hp
        subst hm'
        refine ⟨by simpa [List.length_set] using ihL, ?_⟩
        simp only [occCount, List.countP_set _ _ _ _ hsL]
        rw [getD_eq_getElem hsL] at hocc
        rw [hocc]
        have hpos : 0 < m.occCount := by
          rw [occCount, List.countP_pos_iff]
          exact ⟨_, List.getElem_mem hsL, by rw [hocc]; rfl⟩
        have e1 : (if (HashMapEntry.occupied k w).isOccupied = true then 1 else 0)
            = 1 := rfl
        have e2 : (if (HashMapEntry.deleted : HashMapEntry K V).isOccupied = true
            then 1 else 0) = 0 := rfl
        rw [e1, e2]
        rw [occCount] at ihC hpos
        omega
    | panicked => rw [hp] at hstep; cases hstep
    | fuelOut => rw [hp] at hstep; cases hstep


theorem reachableNoDup_toReachable {hashf : K → Nat} {N : Nat} {m : HashMap K V}
    (h : ReachableNoDupIns hashf N m) : Reachable hashf N m := by
  induction h with
  | new => exact .new
  | insert _ _ hstep ih => exact .insert ih hstep
  | remove _ hstep ih => exact .remove ih hstep

theorem reachableNoDup_atMostOne {hashf : K → Nat} {N : Nat} {m : HashMap K V}
    (h : ReachableNoDupIns hashf N m) : AtMostOneKey m := by
  induction h with
  | new =>
    intro i j k v v' hi hj hgi hgj
    rw [new] at hgi
    simp only at hgi
    rw [getD_replicate] at hgi
    cases hgi
  | @insert m m' k v b _ hNp hstep ih =>
    rw [insert] at hstep
    cases hp : m.probe_for_available_spot hashf k with
    | ok r =>
      rw [hp] at hstep
      cases r with
      | none =>
        simp only [Res.ok.injEq, Prod.mk.injEq] at hstep
        obtain ⟨hm', _⟩ := hstep
        subst hm'
        exact ih
      | some spot =>
        simp only [Res.ok.injEq, Prod.mk.injEq] at hstep
        obtain ⟨hm', _⟩ := hstep
        obtain ⟨_, _, _, _, _, _, hsL⟩ := probe_for_available_spot_found hp
        subst hm'
        intro i j x vx vx' hi hj hgi hgj
        simp only [List.length_set] at hi hj
        simp only at hgi hgj
        by_cases hisp : spot = i
        · by_cases hjsp : spot = j
          · omega
          · subst hisp
            rw [getD_set_self hsL] at hgi
            injection hgi with hk1 hv1
            subst hk1
            rw [getD_set_ne hjsp] at hgj
            exact absurd ⟨j, vx', hgj⟩ hNp
        · rw [getD_set_ne hisp] at hgi
          by_cases hjsp : spot = j
          · subst hjsp
            rw [getD_set_self hsL] at hgj
            injection hgj with hk1 hv1
            subst hk1
            exact absurd ⟨i, vx, hgi⟩ hNp
          · rw [getD_set_ne hjsp] at hgj
            exact ih i j x vx vx' hi hj hgi hgj
    | panicked => rw [hp] at hstep; cases hstep
    | fuelOut => rw [hp] at hstep; cases hstep
  | @remove m m' k r _ hstep ih =>
    rw [remove] at hstep
    cases hp : m.probe_for_existing_spot hashf k with
    | ok rr =>
      rw [hp] at hstep
      cases rr with
      | none =>
        simp only [Res.ok.injEq, Prod.mk.injEq] at hstep
        obtain ⟨hm', _⟩ := hstep
        subst hm'
        exact ih
      | some spot =>
        simp only [Res.ok.injEq, Prod.mk.injEq] at hstep
        obtain ⟨hm', _⟩ := hstep
        subst hm'
        intro i j x vx vx' hi hj hgi hgj
        simp only [List.length_set] at hi hj
        simp only at hgi hgj
        by_cases hisp : spot = i
        · subst hisp
          rw [getD_set_self (by omega)] at hgi
          cases hgi
        · rw [getD_set_ne hisp] at hgi
          by_cases hjsp : spot = j
          · subst hjsp
            rw [getD_set_self (by omega)] at hgj
            cases hgj
          · rw [getD_set_ne hjsp] at hgj
            exact ih i j x vx vx' hi hj hgi hgj
    | panicked => rw [hp] at hstep; cases hstep
    | fuelOut => rw [hp] at hstep; cases hstep


end HashMap

namespace HashSet

variable {T : Type} [DecidableEq T]

theorem set_probeAvailGo_ne_fuelOut {arr : List (HashSetEntry T)} {elem : T}
    {orig : Nat} (ho : orig < arr.length) :
    ∀ fuel spot, spot < arr.length →
      (orig + arr.length - (spot + 1)) % arr.length + 1 ≤ fuel →
      probeAvailGo arr elem orig spot fuel ≠ .fuelOut := by
  intro fuel
  induction fuel with
  | zero => intro spot _ hb; exact absurd hb (by omega)
  | succ f ih =>
    intro spot hs hb
    have hL0 : 0 < arr.length := Nat.zero_lt_of_lt hs
    simp only [probeAvailGo]
    split
    · simp
    · simp
    · rename_i el heq
      by_cases hk : el = elem
      · simp [hk]
      · simp only [if_neg hk]
        by_cases hw : (spot + 1) % arr.length = orig
        · simp [hw]
        · simp only [if_neg hw]
          apply ih
          · exact Nat.mod_lt _ hL0
          · have hk1 : 1 ≤ (orig + arr.length - (spot + 1)) % arr.length := by
              by_contra hcon
              exact hw (probeStep_dist_zero hs ho (by omega))
            have hstep := probeStep_dist_succ hs ho hk1
            omega

theorem set_probeAvailGo_found {arr : List (HashSetEntry T)} {elem : T}
    {orig : Nat} :
    ∀ fuel spot s, spot < arr.length →
      probeAvailGo arr elem orig spot fuel = .ok (some s) →
      ∃ d, d < fuel ∧ s = (spot + d) % arr.length ∧
        (∀ i, i < d → OccOther arr elem ((spot + i) % arr.length)) ∧
        (arr.getD s .empty).isOccupied = false ∧ s < arr.length := by
  intro fuel
  induction fuel with
  | zero => intro spot s _ h; simp [probeAvailGo] at h
  | succ f ih =>
    intro spot s hs h
    have hL0 : 0 < arr.length := Nat.zero_lt_of_lt hs
    simp only [probeAvailGo] at h
    split at h
    · rename_i hE
      simp only [Res.ok.injEq, Option.some.injEq] at h
      subst h
      exact ⟨0, by omega, by rw [Nat.add_zero, Nat.mod_eq_of_lt hs],
        fun i hi => absurd hi (by omega), by rw [hE]; rfl, hs⟩
    · rename_i hE
      simp only [Res.ok.injEq, Option.some.injEq] at h
      subst h
      exact ⟨0, by omega, by rw [Nat.add_zero, Nat.mod_eq_of_lt hs],
        fun i hi => absurd hi (by omega), by rw [hE]; rfl, hs⟩
    · rename_i el hE
      split at h
      · simp at h
      · rename_i hk
        split at h
        · simp at h
        · rename_i hw
          obtain ⟨d, hd, hse, hpath, hocc, hsL⟩ :=
            ih ((spot + 1) % arr.length) s (Nat.mod_lt _ hL0) h
          refine ⟨d + 1, by omega, ?_, ?_, hocc, hsL⟩
          · rw [hse, mod_shift]
            congr 1
            omega
          · intro i hi
            match i with
            | 0 =>
              rw [Nat.add_zero, Nat.mod_eq_of_lt hs]
              exact ⟨el, hE, hk⟩
            | i + 1 =>
              have hp := hpath i (by omega)
              rw [mod_shift] at hp
              have harr : spot + 1 + i = spot + (i + 1) := by omega
              rwa [harr] at hp

theorem set_probeAvailGo_panicked {arr : List (HashSetEntry T)} {elem : T}
    {orig : Nat} :
    ∀ fuel spot, spot < arr.length →
      probeAvailGo arr elem orig spot fuel = .panicked →
      ∃ d, d < fuel ∧ (spot + d + 1) % arr.length = orig ∧
        ∀ i, i ≤ d → OccOther arr elem ((spot + i) % arr.length) := by
  intro fuel
  induction fuel with
  | zero => intro spot _ h; simp [probeAvailGo] at h
  | succ f ih =>
    intro spot hs h
    have hL0 : 0 < arr.length := Nat.zero_lt_of_lt hs
    simp only [probeAvailGo] at h
    split at h
    · simp at h
    · simp at h
    · rename_i el hE
      split at h
      · simp at h
      · rename_i hk
        split at h
        · rename_i hw
          refine ⟨0, by omega, by rwa [Nat.add_zero], ?_⟩
          intro i hi
          have hi0 : i = 0 := by omega
          subst hi0
          rw [Nat.add_zero, Nat.mod_eq_of_lt hs]
          exact ⟨el, hE, hk⟩
        · rename_i hw
          obtain ⟨d, hd, hwrap, hpath⟩ :=
            ih ((spot + 1) % arr.length) (Nat.mod_lt _ hL0) h
          refine ⟨d + 1, by omega, ?_, ?_⟩
          · rw [← hwrap]
            have h1 : (spot + 1) % arr.length + d + 1 =
                (spot + 1) % arr.length + (d + 1) := by omega
            rw [h1, mod_shift]
            congr 1
            omega
          · intro i hi
            match i with
            | 0 =>
              rw [Nat.add_zero, Nat.mod_eq_of_lt hs]
              exact ⟨el, hE, hk⟩
            | i + 1 =>
              have hp := hpath i (by omega)
              rw [mod_shift] at hp
              have harr : spot + 1 + i = spot + (i + 1) := by omega
              rwa [harr] at hp

theorem set_probeExistGo_found {arr : List (HashSetEntry T)} {elem : T}
    {orig : Nat} :
    ∀ fuel spot s, probeExistGo arr elem orig spot fuel = .ok (some s) →
      s < arr.length ∧ arr.getD s .empty = .occupied elem := by
  intro fuel
  induction fuel with
  | zero => intro spot s h; simp [probeExistGo] at h
  | succ f ih =>
    intro spot s h
    simp only [probeExistGo] at h
    split at h
    · simp at h
    · split at h
      · simp at h
      · exact ih _ _ h
    · rename_i el hE
      split at h
      · rename_i hk
        simp only [Res.ok.injEq, Option.some.injEq] at h
        subst h
        subst hk
        refine ⟨?_, hE⟩
        by_contra hcon
        rw [getD_of_length_le (by omega)] at hE
        cases hE
      · split at h
        · simp at h
        · exact ih _ _ h

theorem set_probeExistGo_ne_panicked {arr : List (HashSetEntry T)} {elem : T}
    {orig : Nat} :
    ∀ fuel spot, probeExistGo arr elem orig spot fuel ≠ .panicked := by
  intro fuel
  induction fuel with
  | zero => intro spot h; simp [probeExistGo] at h
  | succ f ih =>
    intro spot h
    simp only [probeExistGo] at h
    split at h
    · simp at h
    · split at h
      · simp at h
      · exact ih _ h
    · split at h
      · simp at h
      · split at h
        · simp at h
        · exact ih _ h

theorem set_probeExistGo_ne_fuelOut {arr : List (HashSetEntry T)} {elem : T}
    {orig : Nat} (ho : orig < arr.length) :
    ∀ fuel spot, spot < arr.length →
      (orig + arr.length - (spot + 1)) % arr.length + 1 ≤ fuel →
      probeExistGo arr elem orig spot fuel ≠ .fuelOut := by
  intro fuel
  induction fuel with
  | zero => intro spot _ hb; exact absurd hb (by omega)
  | succ f ih =>
    intro spot hs hb
    have hL0 : 0 < arr.length := Nat.zero_lt_of_lt hs
    have hnext : (spot + 1) % arr.length ≠ orig →
        probeExistGo arr elem orig ((spot + 1) % arr.length) f ≠ .fuelOut := by
      intro hw
      apply ih _ (Nat.mod_lt _ hL0)
      have hk1 : 1 ≤ (orig + arr.length - (spot + 1)) % arr.length := by
        by_contra hcon
        exact hw (probeStep_dist_zero hs ho (by omega))
      have hstep := probeStep_dist_succ hs ho hk1
      omega
    simp only [probeExistGo]
    split
    · simp
    · split
      · simp
      · rename_i hw; exact hnext hw
    · split
      · simp
      · split
        · simp
        · rename_i hw; exact hnext hw

theorem set_probe_for_available_spot_ne_fuelOut (s : HashSet T) (hashf : T → Nat)
    (elem : T) : s.probe_for_available_spot hashf elem ≠ .fuelOut := by
  by_cases hlen : s.len ≥ s.arr.length
  · simp [probe_for_available_spot, hlen]
  · simp only [probe_for_available_spot, if_neg hlen]
    have hL0 : 0 < s.arr.length := by omega
    have ho : hashf elem % s.arr.length < s.arr.length := Nat.mod_lt _ hL0
    apply set_probeAvailGo_ne_fuelOut ho _ _ ho
    have harr : hashf elem % s.arr.length + s.arr.length -
        (hashf elem % s.arr.length + 1) = s.arr.length - 1 := by omega
    rw [harr, Nat.mod_eq_of_lt (by omega)]
    omega

theorem set_probe_for_existing_spot_ne_fuelOut (s : HashSet T) (hashf : T → Nat)
    (elem : T) (hwf : s.len ≤ s.arr.length) :
    s.probe_for_existing_spot hashf elem ≠ .fuelOut := by
  by_cases hlen : s.len = 0
  · simp [probe_for_existing_spot, hlen]
  · simp only [probe_for_existing_spot, if_neg hlen]
    have hL0 : 0 < s.arr.length := by omega
    have ho : hashf elem % s.arr.length < s.arr.length := Nat.mod_lt _ hL0
    apply set_probeExistGo_ne_fuelOut ho _ _ ho
    have harr : hashf elem % s.arr.length + s.arr.length -
        (hashf elem % s.arr.length + 1) = s.arr.length - 1 := by omega
    rw [harr, Nat.mod_eq_of_lt (by omega)]
    omega

theorem set_probe_for_existing_spot_ne_panicked (s : HashSet T) (hashf : T → Nat)
    (elem : T) : s.probe_for_existing_spot hashf elem ≠ .panicked := by
  by_cases hlen : s.len = 0
  · simp [probe_for_existing_spot, hlen]
  · simp only [probe_for_existing_spot, if_neg hlen]
    exact set_probeExistGo_ne_panicked _ _

theorem set_probe_for_existing_spot_found {s : HashSet T} {hashf : T → Nat}
    {elem : T} {x : Nat}
    (h : s.probe_for_existing_spot hashf elem = .ok (some x)) :
    x < s.arr.length ∧ s.arr.getD x .empty = .occupied elem := by
  by_cases hlen : s.len = 0
  · simp [probe_for_existing_spot, hlen] at h
  · simp only [probe_for_existing_spot, if_neg hlen] at h
    exact set_probeExistGo_found _ _ _ h

theorem set_probe_for_available_spot_found {s : HashSet T} {hashf : T → Nat}
    {elem : T} {x : Nat}
    (h : s.probe_for_available_spot hashf elem = .ok (some x)) :
    s.len < s.arr.length ∧
      ∃ d, d < s.arr.length ∧
        x = (hashf elem % s.arr.length + d) % s.arr.length ∧
        (∀ i, i < d →
          OccOther s.arr elem ((hashf elem % s.arr.length + i) % s.arr.length)) ∧
        (s.arr.getD x .empty).isOccupied = false ∧ x < s.arr.length := by
  by_cases hlen : s.len ≥ s.arr.length
  · simp [probe_for_available_spot, hlen] at h
  · simp only [probe_for_available_spot, if_neg hlen] at h
    have hL0 : 0 < s.arr.length := by omega
    have ho : hashf elem % s.arr.length < s.arr.length := Nat.mod_lt _ hL0
    obtain ⟨d, hd, rest⟩ := set_probeAvailGo_found _ _ _ ho h
    exact ⟨by omega, d, hd, rest⟩

theorem set_reachable_wf {hashf : T → Nat} {N : Nat} {s : HashSet T}
    (h : Reachable hashf N s) : s.arr.length = N ∧ s.occCount = s.len := by
  induction h with
  | new =>
    refine ⟨List.length_replicate _ _, ?_⟩
    simp only [occCount, new]
    exact countP_replicate_not _ _ rfl N
  | @insert s s' x b _ hstep ih =>
    obtain ⟨ihL, ihC⟩ := ih
    rw [insert] at hstep
    cases hp : s.probe_for_available_spot hashf x with
    | ok r =>
      rw [hp] at hstep
      cases r with
      | none =>
        simp only [Res.ok.injEq, Prod.mk.injEq] at hstep
        obtain ⟨hs', hb⟩ := hstep
        subst hs'
        exact ⟨ihL, ihC⟩
      | some spot =>
        simp only [Res.ok.injEq, Prod.mk.injEq] at hstep
        obtain ⟨hs', hb⟩ := hstep
        obtain ⟨hlenlt, d, hd, hse, hpath, hnocc, hsL⟩ :=
          set_probe_for_available_spot_found hp
        subst hs'
        refine ⟨by simpa [List.length_set] using ihL, ?_⟩
        simp only [occCount, List.countP_set _ _ _ _ hsL]
        rw [← getD_eq_getElem hsL, hnocc]
        have e1 : (if (false : Bool) = true then 1 else 0) = 0 := rfl
        have e2 : (if (HashSetEntry.occupied x).isOccupied = true then 1 else 0)
            = 1 := rfl
        rw [e1, e2]
        rw [occCount] at ihC
        omega
    | panicked => rw [hp] at hstep; cases hstep
    | fuelOut => rw [hp] at hstep; cases hstep
  | @remove s s' x r _ hstep ih =>
    obtain ⟨ihL, ihC⟩ := ih
    rw [remove] at hstep
    cases hp : s.probe_for_existing_spot hashf x with
    | ok rr =>
      rw [hp] at hstep
      cases rr with
      | none =>
        simp only [Res.ok.injEq, Prod.mk.injEq] at hstep
        obtain ⟨hs', hr⟩ := hstep
        subst hs'
        exact ⟨ihL, ihC⟩
      | some spot =>
        simp only [Res.ok.injEq, Prod.mk.injEq] at hstep
        obtain ⟨hs', hr⟩ := hstep
        obtain ⟨hsL, hocc⟩ := set_probe_for_existing_spot_found hp
        subst hs'
        refine ⟨by simpa [List.length_set] using ihL, ?_⟩
        simp only [occCount, List.countP_set _ _ _ _ hsL]
        rw [getD_eq_getElem hsL] at hocc
        rw [hocc]
        have hpos : 0 < s.occCount := by
          rw [occCount, List.countP_pos_iff]
          exact ⟨_, List.getElem_mem hsL, by rw [hocc]; rfl⟩
        have e1 : (if (HashSetEntry.occupied x).isOccupied = true then 1 else 0)
            = 1 := rfl
        have e2 : (if (HashSetEntry.deleted : HashSetEntry T).isOccupied = true
            then 1 else 0) = 0 := rfl
        rw [e1, e2]
        rw [occCount] at ihC hpos
        omega
    | panicked => rw [hp] at hstep; cases hstep
    | fuelOut => rw [hp] at hstep; cases hstep

theorem set_reachableNoDup_toReachable {hashf : T → Nat} {N : Nat} {s : HashSet T}
    (h : ReachableNoDupIns hashf N s) : Reachable hashf N s := by
  induction h with
  | new => exact .new
  | insert _ _ hstep ih => exact .insert ih hstep
  | remove _ hstep ih => exact .remove ih hstep

theorem set_reachableNoDup_atMostOne {hashf : T → Nat} {N : Nat} {s : HashSet T}
    (h : ReachableNoDupIns hashf N s) : AtMostOneElem s := by
  induction h with
  | new =>
    intro i j x hi hj hgi hgj
    rw [new] at hgi
    simp only at hgi
    rw [getD_replicate] at hgi
    cases hgi
  | @insert s s' x b _ hNp hstep ih =>
    rw [insert] at hstep
    cases hp : s.probe_for_available_spot hashf x with
    | ok r =>
      rw [hp] at hstep
      cases r with
      | none =>
        simp only [Res.ok.injEq, Prod.mk.injEq] at hstep
        obtain ⟨hs', _⟩ := hstep
        subst hs'
        exact ih
      | some spot =>
        simp only [Res.ok.injEq, Prod.mk.injEq] at hstep
        obtain ⟨hs', _⟩ := hstep
        obtain ⟨_, _, _, _, _, _, hsL⟩ := set_probe_for_available_spot_found hp
        subst hs'
        intro i j y hi hj hgi hgj
        simp only [List.length_set] at hi hj
        simp only at hgi hgj
        by_cases hisp : spot = i
        · by_cases hjsp : spot = j
          · omega
          · subst hisp
            rw [getD_set_self hsL] at hgi
            injection hgi with hk1
            subst hk1
            rw [getD_set_ne hjsp] at hgj
            exact absurd ⟨j, hgj⟩ hNp
        · rw [getD_set_ne hisp] at hgi
          by_cases hjsp : spot = j
          · subst hjsp
            rw [getD_set_self hsL] at hgj
            injection hgj with hk1
            subst hk1
            exact absurd ⟨i, hgi⟩ hNp
          · rw [getD_set_ne hjsp] at hgj
            exact ih i j y hi hj hgi hgj
    | panicked => rw [hp] at hstep; cases hstep
    | fuelOut => rw [hp] at hstep; cases hstep
  | @remove s s' x r _ hstep ih =>
    rw [remove] at hstep
    cases hp : s.probe_for_existing_spot hashf x with
    | ok rr =>
      rw [hp] at hstep
      cases rr with
      | none =>
        simp only [Res.ok.injEq, Prod.mk.injEq] at hstep
        obtain ⟨hs', _⟩ := hstep
        subst hs'
        exact ih
      | some spot =>
        simp only [Res.ok.injEq, Prod.mk.injEq] at hstep
        obtain ⟨hs', _⟩ := hstep
        subst hs'
        intro i j y hi hj hgi hgj
        simp only [List.length_set] at hi hj
        simp only at hgi hgj
        by_cases hisp : spot = i
        · subst hisp
          rw [getD_set_self (by omega)] at hgi
          cases hgi
        · rw [getD_set_ne hisp] at hgi
          by_cases hjsp : spot = j
          · subst hjsp
            rw [getD_set_self (by omega)] at hgj
            cases hgj
          · rw [getD_set_ne hjsp] at hgj
            exact ih i j y hi hj hgi hgj
    | panicked => rw [hp] at hstep; cases hstep
    | fuelOut => rw [hp] at hstep; cases hstep

end HashSet

theorem cexM1_step :
    (HashMap.new Nat Nat 3).insert zeroHash 1 10 = .ok (cexM1, true) := by decide

theorem cexM2_step : cexM1.insert zeroHash 2 20 = .ok (cexM2, true) := by decide

theorem cexM3_step : cexM2.remove zeroHash 1 = .ok (cexM3, some 10) := by decide

theorem cexM4_step : cexM3.insert zeroHash 2 99 = .ok (cexM4, true) := by decide

theorem cexM3_reachable : HashMap.Reachable zeroHash 3 cexM3 :=
  .remove (.insert (.insert .new cexM1_step) cexM2_step) cexM3_step

theorem cexM4_reachable : HashMap.Reachable zeroHash 3 cexM4 :=
  .insert cexM3_reachable cexM4_step

/-- C1 (counterexample).  The claim fails exactly when a `Deleted` slot lies
on the probe path before the key's `Occupied` slot: in the reachable state
`cexM3` (capacity 3, all-zero hasher), key 2 is `Occupied` in slot 1 and a
tombstone sits in its home bucket (slot 0); `insert(2, 99)` then returns
`true`, writes slot 0 and increments `len`, instead of returning `false` and
leaving the table unchanged. -/
theorem c1_insert_present_key_after_tombstone_succeeds :
    HashMap.Reachable zeroHash 3 cexM3 ∧
    cexM3.entries.getD 1 .empty = .occupied 2 20 ∧
    cexM3.entries.getD 0 .empty = .deleted ∧
    cexM3.insert zeroHash 2 99 = .ok (cexM4, true) ∧
    cexM4 ≠ cexM3 ∧ cexM4.len = cexM3.len + 1 :=
  ⟨cexM3_reachable, by decide, by decide, cexM4_step, by decide, by decide⟩

/-- C3 (counterexample).  The reachable state `cexM4` (new; insert 1; insert
2; remove 1; insert 2 again, capacity 3, all-zero hasher) holds key 2 in two
distinct `Occupied` slots, so the at-most-one-slot-per-key invariant is not
maintained by the public operations. -/
theorem c3_reachable_state_with_duplicate_key :
    HashMap.Reachable zeroHash 3 cexM4 ∧
    cexM4.entries.getD 0 .empty = .occupied 2 99 ∧
    cexM4.entries.getD 1 .empty = .occupied 2 20 ∧
    ¬ HashMap.AtMostOneKey cexM4 :=
  ⟨cexM4_reachable, by decide, by decide, fun h => by
    have h01 := h 0 1 2 99 20 (by decide) (by decide) (by decide) (by decide)
    exact absurd h01 (by decide)⟩

/-- C7 (counterexample).  From the reachable state `cexM4` (which holds key 2
twice), `remove(2)` deletes only the first copy, and the immediately
following `get(2)` still returns `Some 20` rather than `None`. -/
theorem c7_get_after_remove_not_none :
    HashMap.Reachable zeroHash 3 cexM4 ∧
    cexM4.remove zeroHash 2 = .ok (cexM3, some 99) ∧
    cexM3.get zeroHash 2 = .ok (some 20) :=
  ⟨cexM4_reachable, by decide, by decide⟩

/-- C4.  Deterministic tombstone trace at capacity 50 with the all-keys-
collide hasher: inserting keys 1,2,3,4 fills slots 0..3 in order; `remove(2)`
marks slot 1 `Deleted` while `get(1)/get(3)/get(4)` still answer and
`contains(2)` is `false`; `remove(1)` marks slot 0 `Deleted`; `insert(5)`
reuses slot 0, leaving `[Occupied(5), Deleted, Occupied(3), Occupied(4)]`. -/
theorem c4_tombstone_skip_over_trace :
    (HashMap.new Nat Nat 50).insertList zeroHash
      [(1, 1), (2, 2), (3, 3), (4, 4)] = .ok (c4m4, true) ∧
    c4m4.entries.take 4 =
      [.occupied 1 1, .occupied 2 2, .occupied 3 3, .occupied 4 4] ∧
    c4m4.remove zeroHash 2 = .ok (c4m5, some 2) ∧
    c4m5.entries.getD 1 .empty = .deleted ∧
    c4m5.get zeroHash 1 = .ok (some 1) ∧
    c4m5.get zeroHash 3 = .ok (some 3) ∧
    c4m5.get zeroHash 4 = .ok (some 4) ∧
    c4m5.contains_key zeroHash 2 = .ok false ∧
    c4m5.remove zeroHash 1 = .ok (c4m6, some 1) ∧
    c4m6.entries.getD 0 .empty = .deleted ∧
    c4m6.insert zeroHash 5 5 = .ok (c4m7, true) ∧
    c4m7.entries.take 4 =
      [.occupied 5 5, .deleted, .occupied 3 3, .occupied 4 4] := by
  refine ⟨?_, ?_, ?_, ?_, ?_, ?_, ?_, ?_, ?_, ?_, ?_, ?_⟩ <;> decide

theorem slP1_step : (SearchableList.new Nat 10).push 1 = .ok slP1 := by
  simp [SearchableList.push, SearchableList.search_for_new_spot, cmp, cmpUsing,
    SearchableList.pushShiftGo, SearchableList.new, slP1]

theorem slP2_step : slP1.push 3 = .ok slP2 := by
  simp [SearchableList.push, SearchableList.search_for_new_spot, cmp, cmpUsing,
    SearchableList.pushShiftGo, slP1, slP2]

theorem slP3_step : slP2.push 2 = .ok slP3 := by
  simp [SearchableList.push, SearchableList.search_for_new_spot, cmp, cmpUsing,
    SearchableList.pushShiftGo, slP2, slP3]

theorem slP4_step : slP3.push 0 = .ok slP4 := by
  simp [SearchableList.push, SearchableList.search_for_new_spot, cmp, cmpUsing,
    SearchableList.pushShiftGo, slP3, slP4]

theorem slP5_step : slP4.pop = .ok (slP5, some 0) := by
  simp [SearchableList.pop, SearchableList.popShiftGo, slP4, slP5]

/-- C9.  Pushing 1, 3, 2, 0 into an empty `SearchableList<u32, 10>` assigns
handles 0, 1, 2, 3 in arrival order, yielding sorted backing values
`[0, 1, 2, 3]` with handle-to-position map `[1, 3, 2, 0]`; `pop()` then
removes and returns the element with handle 3 (value 0, the most recently
pushed). -/
theorem c9_handle_stability_and_lifo_pop :
    (SearchableList.new Nat 10).push 1 = .ok slP1 ∧
    slP1.push 3 = .ok slP2 ∧ slP2.push 2 = .ok slP3 ∧ slP3.push 0 = .ok slP4 ∧
    slP4.backing.take 4 = [some (3, 0), some (0, 1), some (2, 2), some (1, 3)] ∧
    slP4.indices.take 4 = [some 1, some 3, some 2, some 0] ∧
    slP4.pop = .ok (slP5, some 0) :=
  ⟨slP1_step, slP2_step, slP3_step, slP4_step, by decide, by decide, slP5_step⟩

/-- C2 (code bug).  `find` is not total on live states: on the reachable
singleton list `slP1` (one pushed element, value 1), `find(1)` hits the
`diff == 1` arm of `search_for_existing_spot_by` with `end_j = len = 1`,
destructures the dead slot `backing[1] = None` and panics — even though the
value is live — and `find(2)` panics likewise instead of returning `None`.
On the four-element state `slP4`, `find(5)` (absent, above the maximum)
panics instead of returning `None`, while live values are still found. -/
theorem c2_find_panics_on_singleton_and_above_max :
    SearchableList.Reachable 10 slP1 ∧
    slP1.find 1 = .panicked ∧
    slP1.find 2 = .panicked ∧
    slP4.find 5 = .panicked ∧
    slP4.find 0 = .ok (some 3) ∧ slP4.find 3 = .ok (some 1) := by
  refine ⟨.push .new slP1_step, ?_, ?_, ?_, ?_, ?_⟩ <;>
    simp [SearchableList.find, SearchableList.search_for_existing_spot_by,
      cmp, cmpUsing, slP1, slP4]

/-- C10.  On any structure with `len == 0`, `get`, `remove` and
`contains_key` on the table and `pop` and `find` on the order-indexed
sequence return the empty result, leave the state unchanged, and are
independent of the hasher (the probes return before hashing). -/
theorem c10_empty_operations_are_inert {K V T : Type} [DecidableEq K]
    [LinearOrder T] (m : HashMap K V) (s : SearchableList T)
    (hf hf' : K → Nat) (k : K) (x : T)
    (hm : m.len = 0) (hs : s.len = 0) :
    m.get hf k = .ok none ∧ m.get hf k = m.get hf' k ∧
    m.remove hf k = .ok (m, none) ∧ m.remove hf k = m.remove hf' k ∧
    m.contains_key hf k = .ok false ∧
    m.contains_key hf k = m.contains_key hf' k ∧
    s.pop = .ok (s, none) ∧ s.find x = .ok none := by
  refine ⟨?_, ?_, ?_, ?_, ?_, ?_, ?_, ?_⟩ <;>
    simp [HashMap.get, HashMap.remove, HashMap.contains_key,
      HashMap.probe_for_existing_spot, SearchableList.pop, SearchableList.find,
      SearchableList.search_for_existing_spot_by, hm, hs]

/-- C10 (witness): the conclusions instantiated on concrete empty
structures. -/
theorem c10_witness :
    (HashMap.new Nat Nat 5).get zeroHash 7 = .ok none ∧
    (SearchableList.new Nat 5).pop = .ok (SearchableList.new Nat 5, none) :=
  ⟨(c10_empty_operations_are_inert (HashMap.new Nat Nat 5)
      (SearchableList.new Nat 5) zeroHash zeroHash 7 0 rfl rfl).1,
   (c10_empty_operations_are_inert (HashMap.new Nat Nat 5)
      (SearchableList.new Nat 5) zeroHash zeroHash 7 0 rfl rfl).2.2.2.2.2.2.1⟩

end StaticCollections

namespace StaticCollections

namespace HashMap

variable {K V : Type} [DecidableEq K]

theorem probeAvailGo_dupFound {entries : List (HashMapEntry K V)} {key : K}
    {orig : Nat} :
    ∀ fuel spot, probeAvailGo entries key orig spot fuel = .ok none →
      ∃ x w, entries.getD x .empty = .occupied key w := by
  intro fuel
  induction fuel with
  | zero => intro spot h; simp [probeAvailGo] at h
  | succ f ih =>
    intro spot h
    simp only [probeAvailGo] at h
    split at h
    · simp at h
    · simp at h
    · rename_i k v hE
      split at h
      · rename_i hk
        subst hk
        exact ⟨spot, v, hE⟩
      · split at h
        · simp at h
        · exact ih _ h

theorem probe_for_available_spot_none {m : HashMap K V} {hashf : K → Nat}
    {key : K} (h : m.probe_for_available_spot hashf key = .ok none) :
    m.entries.length ≤ m.len ∨ KeyPresent m key := by
  by_cases hlen : m.len ≥ m.entries.length
  · exact Or.inl hlen
  · simp only [probe_for_available_spot, if_neg hlen] at h
    obtain ⟨x, w, hx⟩ := probeAvailGo_dupFound _ _ h
    exact Or.inr ⟨x, w, hx⟩

theorem probe_for_available_spot_panicked_full {m : HashMap K V}
    {hashf : K → Nat} {key : K}
    (h : m.probe_for_available_spot hashf key = .panicked) :
    m.occCount = m.entries.length := by
  by_cases hlen : m.len ≥ m.entries.length
  · simp [probe_for_available_spot, hlen] at h
  · simp only [probe_for_available_spot, if_neg hlen] at h
    have hL0 : 0 < m.entries.length := by omega
    have ho : hashf key % m.entries.length < m.entries.length := Nat.mod_lt _ hL0
    obtain ⟨d, hd, hwrap, hpath⟩ := probeAvailGo_panicked _ _ ho h
    have hdL : d + 1 = m.entries.length := by
      by_contra hne
      have hlt : d + 1 < m.entries.length := by omega
      have harr : hashf key % m.entries.length + d + 1 =
          hashf key % m.entries.length + (d + 1) := by omega
      rw [harr] at hwrap
      exact mod_add_ne ho (by omega) hlt hwrap
    have hall : ∀ j, j < m.entries.length → OccOther m.entries key j := by
      intro j hj
      obtain ⟨i, hiL, hie⟩ := mod_surj_on ho hj
      have := hpath i (by omega)
      rwa [hie] at this
    rw [occCount, List.countP_eq_length]
    intro a ha
    obtain ⟨i, hiL, hieq⟩ := List.getElem_of_mem ha
    obtain ⟨k', v', hk', _⟩ := hall i hiL
    rw [getD_eq_getElem hiL, hieq] at hk'
    rw [hk']
    rfl


theorem get_after_insert {m m' : HashMap K V} {hashf : K → Nat} {k : K} {v : V}
    (h : m.insert hashf k v = .ok (m', true)) : m'.get hashf k = .ok (some v) := by
  rw [insert] at h
  cases hp : m.probe_for_available_spot hashf k with
  | ok r =>
    rw [hp] at h
    cases r with
    | none => simp at h
    | some spot =>
      simp only [Res.ok.injEq, Prod.mk.injEq] at h
      obtain ⟨hm', _⟩ := h
      obtain ⟨hlen, d, hdL, hse, hpath, hnocc, hsL⟩ :=
        probe_for_available_spot_found hp
      have hL0 : 0 < m.entries.length := by omega
      have ho : hashf k % m.entries.length < m.entries.length := Nat.mod_lt _ hL0
      have hL' : (m.entries.set spot (HashMapEntry.occupied k v)).length =
          m.entries.length := List.length_set _ _ _
      have hwalk : probeExistGo (m.entries.set spot (.occupied k v)) k
          (hashf k % m.entries.length) (hashf k % m.entries.length)
          m.entries.length =
          .ok (some ((hashf k % m.entries.length + d) %
            (m.entries.set spot (HashMapEntry.occupied k v)).length)) := by
        apply probeExistGo_walk d m.entries.length _ (by rw [hL']; exact ho)
          hdL
        · intro i hi0 hid
          rw [hL']
          exact mod_add_ne ho hi0 (by omega)
        · intro i hid
          rw [hL']
          have hne : (hashf k % m.entries.length + i) % m.entries.length ≠ spot := by
            rw [hse]
            intro hcon
            have := mod_offset_inj (by omega) (by omega) hcon
            omega
          obtain ⟨k', v', hkv, hk'⟩ := hpath i hid
          exact ⟨k', v', by rw [getD_set_ne (fun hx => hne hx.symm)]; exact hkv, hk'⟩
        · rw [hL', ← hse, getD_set_self hsL]
      rw [hL'] at hwalk
      subst hm'
      rw [get]
      have hprobe : probe_for_existing_spot
          ⟨m.entries.set spot (.occupied k v), m.len + 1⟩ hashf k =
          .ok (some spot) := by
        rw [probe_for_existing_spot]
        simp only [hL']
        rw [if_neg (by omega)]
        rw [hwalk, ← hse]
      rw [hprobe]
      simp only
      rw [getD_set_self hsL]
  | panicked => rw [hp] at h; cases h
  | fuelOut => rw [hp] at h; cases h

theorem insert_fresh {m : HashMap K V} {hashf : K → Nat} {k : K} (v : V)
    (hlen : m.len < m.entries.length) (hcnt : m.occCount = m.len)
    (hnp : ¬ KeyPresent m k) :
    ∃ spot, m.insert hashf k v =
      .ok ({ entries := m.entries.set spot (.occupied k v), len := m.len + 1 },
        true) ∧
      spot < m.entries.length ∧
      (m.entries.getD spot .empty).isOccupied = false := by
  cases hp : m.probe_for_available_spot hashf k with
  | ok r =>
    cases r with
    | none =>
      rcases probe_for_available_spot_none hp with hge | hpres
      · omega
      · exact absurd hpres hnp
    | some spot =>
      obtain ⟨_, d, _, _, _, hnocc, hsL⟩ := probe_for_available_spot_found hp
      refine ⟨spot, ?_, hsL, hnocc⟩
      rw [insert, hp]
  | panicked =>
    have := probe_for_available_spot_panicked_full hp
    omega
  | fuelOut => exact absurd hp (probe_for_available_spot_ne_fuelOut m hashf k)

theorem keyPresent_insert {m : HashMap K V} {k : K} {v : V} {spot : Nat}
    (hsL : spot < m.entries.length)
    (hnocc : (m.entries.getD spot .empty).isOccupied = false) :
    ∀ x, KeyPresent
        ({ entries := m.entries.set spot (.occupied k v), len := m.len + 1 } :
          HashMap K V) x ↔
      (KeyPresent m x ∨ x = k) := by
  intro x
  constructor
  · rintro ⟨i, w, hi⟩
    simp only at hi
    by_cases hij : spot = i
    · subst hij
      rw [getD_set_self hsL] at hi
      injection hi with h1 h2
      exact Or.inr h1.symm
    · rw [getD_set_ne hij] at hi
      exact Or.inl ⟨i, w, hi⟩
  · rintro (⟨i, w, hi⟩ | hxk)
    · have hij : spot ≠ i := by
        intro hcon
        subst hcon
        rw [hi] at hnocc
        cases hnocc
      exact ⟨i, w, by simp only; rw [getD_set_ne hij]; exact hi⟩
    · subst hxk
      exact ⟨spot, v, by simp only; rw [getD_set_self hsL]⟩

theorem insertList_fresh {hashf : K → Nat} {N : Nat} :
    ∀ (ps : List (K × V)) (m : HashMap K V), Reachable hashf N m →
      m.len + ps.length ≤ N →
      (ps.map Prod.fst).Nodup →
      (∀ p ∈ ps, ¬ KeyPresent m p.1) →
      ∃ m', m.insertList hashf ps = .ok (m', true) ∧ Reachable hashf N m' ∧
        m'.len = m.len + ps.length ∧
        (∀ x, KeyPresent m' x → KeyPresent m x ∨ x ∈ ps.map Prod.fst) := by
  intro ps
  induction ps with
  | nil =>
    intro m hr _ _ _
    exact ⟨m, rfl, hr, by simp, fun x hx => Or.inl hx⟩
  | cons p rest ih =>
    obtain ⟨pk, pv⟩ := p
    intro m hr hlen hnodup hfresh
    obtain ⟨hLN, hC⟩ := reachable_wf hr
    have hlenlt : m.len < m.entries.length := by
      simp only [List.length_cons] at hlen
      omega
    have hfr : ¬ KeyPresent m pk := hfresh (pk, pv) (by simp)
    obtain ⟨spot, hins, hsL, hnocc⟩ := insert_fresh (k := pk) pv hlenlt hC hfr
    have hr1 : Reachable hashf N
        ({ entries := m.entries.set spot (.occupied pk pv), len := m.len + 1 } :
          HashMap K V) := .insert hr hins
    simp only [List.map_cons, List.nodup_cons] at hnodup
    obtain ⟨hp_notin, hnodup'⟩ := hnodup
    obtain ⟨m', hlist, hr', hlen', hpres'⟩ := ih _ hr1
      (by simp only [List.length_cons] at hlen; simp only; omega) hnodup'
      (by
        intro q hq hqpres
        rw [keyPresent_insert hsL hnocc] at hqpres
        rcases hqpres with hold | heq
        · exact hfresh q (by simp [hq]) hold
        · exact hp_notin (heq ▸ List.mem_map_of_mem Prod.fst hq))
    refine ⟨m', ?_, hr', by simp only [List.length_cons]; simp only at hlen'; omega, ?_⟩
    · rw [insertList, hins]
      simp [hlist]
    · intro x hx
      rcases hpres' x hx with h1 | h2
      · rcases (keyPresent_insert hsL hnocc x).mp h1 with hold | heq
        · exact Or.inl hold
        · exact Or.inr (by simp [heq])
      · exact Or.inr (by simp [h2])


end HashMap

namespace HashSet

variable {T : Type} [DecidableEq T]

theorem set_probe_for_available_spot_panicked_full {s : HashSet T}
    {hashf : T → Nat} {elem : T}
    (h : s.probe_for_available_spot hashf elem = .panicked) :
    s.occCount = s.arr.length := by
  by_cases hlen : s.len ≥ s.arr.length
  · simp [probe_for_available_spot, hlen] at h
  · simp only [probe_for_available_spot, if_neg hlen] at h
    have hL0 : 0 < s.arr.length := by omega
    have ho : hashf elem % s.arr.length < s.arr.length := Nat.mod_lt _ hL0
    obtain ⟨d, hd, hwrap, hpath⟩ := set_probeAvailGo_panicked _ _ ho h
    have hdL : d + 1 = s.arr.length := by
      by_contra hne
      have hlt : d + 1 < s.arr.length := by omega
      have harr : hashf elem % s.arr.length + d + 1 =
          hashf elem % s.arr.length + (d + 1) := by omega
      rw [harr] at hwrap
      exact mod_add_ne ho (by omega) hlt hwrap
    have hall : ∀ j, j < s.arr.length → OccOther s.arr elem j := by
      intro j hj
      obtain ⟨i, hiL, hie⟩ := mod_surj_on ho hj
      have := hpath i (by omega)
      rwa [hie] at this
    rw [occCount, List.countP_eq_length]
    intro a ha
    obtain ⟨i, hiL, hieq⟩ := List.getElem_of_mem ha
    obtain ⟨e', he', _⟩ := hall i hiL
    rw [getD_eq_getElem hiL, hieq] at he'
    rw [he']
    rfl

end HashSet

/-- C1 (amended).  If, along the probe path from the key's home bucket, the
slots strictly before offset `d` are all `Occupied` by other keys and the
slot at offset `d < N` is `Occupied` by `key` itself — i.e. the key's
`Occupied` slot is reached before any `Empty` or `Deleted` slot — then
`insert(key, value)` returns `false` and leaves the table (slots and `len`)
completely unchanged.  (When a tombstone precedes the key's slot, the
counterexample shows `insert` instead succeeds.) -/
theorem c1_amended_insert_duplicate_before_gap_fails {K V : Type}
    [DecidableEq K] (hashf : K → Nat) (m : HashMap K V) (key : K) (v : V)
    (d : Nat) (hd : d < m.entries.length)
    (hpath : ∀ i, i < d → HashMap.OccOther m.entries key
      ((hashf key % m.entries.length + i) % m.entries.length))
    (htarget : ∃ w, m.entries.getD
      ((hashf key % m.entries.length + d) % m.entries.length) .empty =
      .occupied key w) :
    m.insert hashf key v = .ok (m, false) := by
  obtain ⟨w, hw⟩ := htarget
  have hprobe : m.probe_for_available_spot hashf key = .ok none := by
    by_cases hlen : m.len ≥ m.entries.length
    · simp [HashMap.probe_for_available_spot, hlen]
    · have hL0 : 0 < m.entries.length := by omega
      have ho : hashf key % m.entries.length < m.entries.length :=
        Nat.mod_lt _ hL0
      simp only [HashMap.probe_for_available_spot, if_neg hlen]
      exact HashMap.probeAvailGo_dup d m.entries.length _ ho (by omega)
        (fun i hi0 hid => mod_add_ne ho hi0 (by omega)) hpath hw
  rw [HashMap.insert, hprobe]

/-- C1 (amended, witness): in the state `cexM2` (keys 1 and 2 occupy slots 0
and 1, no tombstones), re-inserting key 2 fails and changes nothing. -/
theorem c1_amended_witness : cexM2.insert zeroHash 2 99 = .ok (cexM2, false) :=
  c1_amended_insert_duplicate_before_gap_fails zeroHash cexM2 2 99 1
    (by decide)
    (fun i hi => by
      have hi0 : i = 0 := by omega
      subst hi0
      exact ⟨1, 10, by decide, by decide⟩)
    ⟨20, by decide⟩

/-- C3 (amended).  Both for the hash map and the hash set: every state
reachable by operation sequences in which `insert` is never called with an
already-present key has at most one `Occupied` slot per distinct key;
`remove` (and the non-mutating `get`/`contains`) always preserve the
invariant. -/
theorem c3_amended_no_dup_insert_unique_keys {K V T : Type} [DecidableEq K]
    [DecidableEq T] :
    (∀ (hashf : K → Nat) (N : Nat) (m : HashMap K V),
      HashMap.ReachableNoDupIns hashf N m → HashMap.AtMostOneKey m) ∧
    (∀ (hashf : T → Nat) (N : Nat) (s : HashSet T),
      HashSet.ReachableNoDupIns hashf N s → HashSet.AtMostOneElem s) :=
  ⟨fun _ _ _ h => HashMap.reachableNoDup_atMostOne h,
   fun _ _ _ h => HashSet.set_reachableNoDup_atMostOne h⟩

/-- C3 (amended, witness): instantiated on freshly created structures. -/
theorem c3_amended_witness :
    HashMap.AtMostOneKey (HashMap.new Nat Nat 2) ∧
    HashSet.AtMostOneElem (HashSet.new Nat 2) :=
  ⟨(c3_amended_no_dup_insert_unique_keys (T := Nat)).1 zeroHash 2 _ .new,
   (c3_amended_no_dup_insert_unique_keys (K := Nat) (V := Nat)).2 zeroHash 2 _
     .new⟩

/-- C6.  Starting from an empty table of capacity `N`, inserting `N`
pairwise-distinct keys succeeds (`insertList` returns `true`, the conjunction
of all individual results) and leaves `len = N`; a further insert of a fresh
key then returns `false` and leaves the table object completely unchanged. -/
theorem c6_capacity_exact_fill {K V : Type} [DecidableEq K] (hashf : K → Nat)
    (N : Nat) (ps : List (K × V)) (k' : K) (v' : V)
    (hlen : ps.length = N) (hnodup : (ps.map Prod.fst).Nodup)
    (_hfresh : k' ∉ ps.map Prod.fst) :
    ∃ m, (HashMap.new K V N).insertList hashf ps = .ok (m, true) ∧
      m.len = N ∧ m.insert hashf k' v' = .ok (m, false) := by
  have hnp : ∀ p ∈ ps, ¬ HashMap.KeyPresent (HashMap.new K V N) p.1 := by
    rintro p _ ⟨i, w, hi⟩
    rw [HashMap.new] at hi
    simp only at hi
    rw [getD_replicate] at hi
    cases hi
  obtain ⟨m', hlist, hr', hlen', _⟩ :=
    HashMap.insertList_fresh ps (HashMap.new K V N) .new
      (by simp [HashMap.new, hlen]) hnodup hnp
  have hlN : m'.len = N := by
    rw [hlen', hlen]
    simp [HashMap.new]
  have hwf := HashMap.reachable_wf hr'
  have hge : m'.len ≥ m'.entries.length := by omega
  have hprobe : m'.probe_for_available_spot hashf k' = .ok none := by
    simp [HashMap.probe_for_available_spot, hge]
  refine ⟨m', hlist, hlN, ?_⟩
  rw [HashMap.insert, hprobe]

/-- C6 (witness): capacity 2 with the all-zero hasher; keys 0, 1 fill the
table and key 2 is then rejected without change. -/
theorem c6_witness :
    ∃ m, (HashMap.new Nat Nat 2).insertList zeroHash [(0, 10), (1, 11)] =
        .ok (m, true) ∧ m.len = 2 ∧ m.insert zeroHash 2 12 = .ok (m, false) :=
  c6_capacity_exact_fill zeroHash 2 [(0, 10), (1, 11)] 2 12 (by decide)
    (by decide) (by decide)

/-- C7 (amended).  First, from any table state, a successful
`insert(k, v)` is immediately observable: `get(k)` returns `Some v`.
Second, for states reachable without duplicate-key inserts (so keys are
unique), after `remove(k)` a `get(k)` returns `None` and an immediately
following second `remove(k)` returns `None` leaving the state unchanged. -/
theorem c7_amended_round_trip {K V : Type} [DecidableEq K] :
    (∀ (hashf : K → Nat) (m m' : HashMap K V) (k : K) (v : V),
      m.insert hashf k v = .ok (m', true) → m'.get hashf k = .ok (some v)) ∧
    (∀ (hashf : K → Nat) (N : Nat) (m m' : HashMap K V) (k : K) (r : Option V),
      HashMap.ReachableNoDupIns hashf N m → m.remove hashf k = .ok (m', r) →
      m'.get hashf k = .ok none ∧ m'.remove hashf k = .ok (m', none)) := by
  constructor
  · intro hashf m m' k v h
    exact HashMap.get_after_insert h
  · intro hashf N m m' k r hreach hrem
    have hu := HashMap.reachableNoDup_atMostOne hreach
    have hwf := HashMap.reachable_wf (HashMap.reachableNoDup_toReachable hreach)
    have hwfle : m.len ≤ m.entries.length := by
      have := List.countP_le_length (fun e => e.isOccupied) (l := m.entries)
      rw [HashMap.occCount] at hwf
      omega
    rw [HashMap.remove] at hrem
    cases hp : m.probe_for_existing_spot hashf k with
    | ok rr =>
      rw [hp] at hrem
      cases rr with
      | none =>
        simp only [Res.ok.injEq, Prod.mk.injEq] at hrem
        obtain ⟨hm', hr⟩ := hrem
        subst hm'
        constructor
        · rw [HashMap.get, hp]
        · rw [HashMap.remove, hp]
      | some spot =>
        simp only [Res.ok.injEq, Prod.mk.injEq] at hrem
        obtain ⟨hm', hr⟩ := hrem
        obtain ⟨hsL, v0, hv0⟩ := HashMap.probe_for_existing_spot_found hp
        have hnone : ∀ x w, ¬ (m'.entries.getD x .empty = .occupied k w) := by
          intro x w hx
          rw [← hm'] at hx
          simp only at hx
          by_cases hxs : spot = x
          · subst hxs
            rw [getD_set_self hsL] at hx
            cases hx
          · rw [getD_set_ne hxs] at hx
            have hxL : x < m.entries.length := by
              by_contra hcon
              rw [getD_of_length_le (by omega)] at hx
              cases hx
            exact hxs (hu x spot k w v0 hxL hsL hx hv0).symm
        have hwfle' : m'.len ≤ m'.entries.length := by
          rw [← hm']
          simp only [List.length_set]
          omega
        have hpe : m'.probe_for_existing_spot hashf k = .ok none := by
          cases hq : m'.probe_for_existing_spot hashf k with
          | ok qq =>
            cases qq with
            | none => rfl
            | some x =>
              obtain ⟨_, w, hw⟩ := HashMap.probe_for_existing_spot_found hq
              exact absurd hw (hnone x w)
          | panicked =>
            exact absurd hq (HashMap.probe_for_existing_spot_ne_panicked m' hashf k)
          | fuelOut =>
            exact absurd hq
              (HashMap.probe_for_existing_spot_ne_fuelOut m' hashf k hwfle')
        constructor
        · rw [HashMap.get, hpe]
        · rw [HashMap.remove, hpe]
    | panicked => rw [hp] at hrem; cases hrem
    | fuelOut => rw [hp] at hrem; cases hrem

/-- C7 (amended, witness): the insert-then-get half applied to the concrete
step `new → cexM1`, and the remove half applied to the empty table. -/
theorem c7_amended_witness :
    cexM1.get zeroHash 1 = .ok (some 10) ∧
    ((HashMap.new Nat Nat 3).get zeroHash 1 = .ok none ∧
      (HashMap.new Nat Nat 3).remove zeroHash 1 =
        .ok (HashMap.new Nat Nat 3, none)) :=
  ⟨(c7_amended_round_trip (V := Nat)).1 zeroHash _ _ 1 10 cexM1_step,
   (c7_amended_round_trip (V := Nat)).2 zeroHash 3 _ _ 1 none .new (by decide)⟩

/-- C5.  Probe termination and the wrap-around contract: both probe loops run
on `N` units of fuel and never exhaust them (they examine at most `N` slots),
a full wrap of the existence probe is an ordinary `None` result, and on every
reachable table state with `len < N` (map or set) the fatal full-wrap branch
of the availability probe cannot fire, because the number of `Occupied` slots
equals `len`. -/
theorem c5_probe_termination_and_no_panic {K V T : Type} [DecidableEq K]
    [DecidableEq T] :
    (∀ (m : HashMap K V) (hashf : K → Nat) (key : K),
      m.probe_for_available_spot hashf key ≠ .fuelOut ∧
      (m.len ≤ m.entries.length →
        m.probe_for_existing_spot hashf key ≠ .fuelOut)) ∧
    (∀ (m : HashMap K V) (hashf : K → Nat) (key : K),
      m.len ≤ m.entries.length → m.len ≠ 0 →
      (∀ j, j < m.entries.length → HashMap.OccOther m.entries key j) →
      m.probe_for_existing_spot hashf key = .ok none) ∧
    (∀ (hashf : K → Nat) (N : Nat) (m : HashMap K V) (key : K),
      HashMap.Reachable hashf N m → m.len < N →
      m.probe_for_available_spot hashf key ≠ .panicked) ∧
    (∀ (s : HashSet T) (hashf : T → Nat) (x : T),
      s.probe_for_available_spot hashf x ≠ .fuelOut ∧
      (s.len ≤ s.arr.length → s.probe_for_existing_spot hashf x ≠ .fuelOut)) ∧
    (∀ (hashf : T → Nat) (N : Nat) (s : HashSet T) (x : T),
      HashSet.Reachable hashf N s → s.len < N →
      s.probe_for_available_spot hashf x ≠ .panicked) := by
  refine ⟨?_, ?_, ?_, ?_, ?_⟩
  · intro m hashf key
    exact ⟨HashMap.probe_for_available_spot_ne_fuelOut m hashf key,
      fun hwf => HashMap.probe_for_existing_spot_ne_fuelOut m hashf key hwf⟩
  · intro m hashf key hwf hne hall
    rw [HashMap.probe_for_existing_spot]
    rw [if_neg hne]
    have hL0 : 0 < m.entries.length := by omega
    have ho : hashf key % m.entries.length < m.entries.length :=
      Nat.mod_lt _ hL0
    apply HashMap.probeExistGo_allOcc ho hall _ _ ho
    have harr : hashf key % m.entries.length + m.entries.length -
        (hashf key % m.entries.length + 1) = m.entries.length - 1 := by omega
    rw [harr, Nat.mod_eq_of_lt (by omega)]
    omega
  · intro hashf N m key hreach hlen hpan
    obtain ⟨hL, hC⟩ := HashMap.reachable_wf hreach
    have := HashMap.probe_for_available_spot_panicked_full hpan
    omega
  · intro s hashf x
    exact ⟨HashSet.set_probe_for_available_spot_ne_fuelOut s hashf x,
      fun hwf => HashSet.set_probe_for_existing_spot_ne_fuelOut s hashf x hwf⟩
  · intro hashf N s x hreach hlen hpan
    obtain ⟨hL, hC⟩ := HashSet.set_reachable_wf hreach
    have := HashSet.set_probe_for_available_spot_panicked_full hpan
    omega

theorem cexM2_reachable : HashMap.Reachable zeroHash 3 cexM2 :=
  .insert (.insert .new cexM1_step) cexM2_step

/-- C5 (witness): the probe guarantees instantiated at concrete tables — the
reachable state `cexM2` for the no-panic parts and a fully `Occupied`
one-slot table for the full-wrap-is-`None` part. -/
theorem c5_witness :
    cexM2.probe_for_available_spot zeroHash 7 ≠ .fuelOut ∧
    cexM2.probe_for_existing_spot zeroHash 7 ≠ .fuelOut ∧
    (HashMap.mk [HashMapEntry.occupied 1 10] 1 :
      HashMap Nat Nat).probe_for_existing_spot zeroHash 7 = .ok none ∧
    cexM2.probe_for_available_spot zeroHash 7 ≠ .panicked :=
  ⟨((c5_probe_termination_and_no_panic (T := Nat)).1 cexM2 zeroHash 7).1,
   ((c5_probe_termination_and_no_panic (T := Nat)).1 cexM2 zeroHash 7).2
     (by decide),
   (c5_probe_termination_and_no_panic (T := Nat)).2.1 _ zeroHash 7 (by decide)
     (by decide)
     (fun j hj => by
       have hj0 : j = 0 := by
         simp only [List.length_cons, List.length_nil] at hj
         omega
       subst hj0
       exact ⟨1, 10, by decide, by decide⟩),
   (c5_probe_termination_and_no_panic (T := Nat)).2.2.1 zeroHash 3 cexM2 7
     cexM2_reachable (by decide)⟩


end StaticCollections

namespace StaticCollections

namespace SearchableList

variable {T : Type} [LinearOrder T]

theorem search_for_new_spot_spec {s : SearchableList T} {elem : T}
    (hlive : ∀ j, j < s.len → ∃ hj v, s.backing.getD j none = some (hj, v))
    (hsorted : SortedBacking s) :
    ∀ (n start_j end_j : Nat), end_j - start_j = n →
      start_j ≤ end_j → end_j ≤ s.len →
      (start_j < end_j ∨ s.len = 0) →
      (start_j = 0 ∨ ∃ hj v, s.backing.getD start_j none = some (hj, v) ∧ v ≤ elem) →
      (end_j = s.len ∨ ∃ hj v, s.backing.getD end_j none = some (hj, v) ∧ elem < v) →
      ∃ spot, s.search_for_new_spot elem start_j end_j = .ok spot ∧
        start_j ≤ spot ∧ spot ≤ end_j ∧
        (∀ j hj v, j < spot → s.backing.getD j none = some (hj, v) → v ≤ elem) ∧
        (∀ j hj v, spot ≤ j → j < s.len → s.backing.getD j none = some (hj, v) →
          elem < v) := by
  intro n
  induction n using Nat.strong_induction_on with
  | _ n ih =>
    intro start_j end_j hn hse hel hwin hstart hend
    rcases Nat.eq_zero_or_pos n with hn0 | hnpos
    · -- diff = 0: start_j = end_j, so the window disjunct forces len = 0
      subst hn0
      have hlen0 : s.len = 0 := by
        rcases hwin with h | h
        · omega
        · exact h
      rw [search_for_new_spot, dif_pos (by omega)]
      rw [if_neg (by omega)]
      refine ⟨0, rfl, by omega, by omega, ?_, ?_⟩
      · intro j hj v hjlt _
        omega
      · intro j hj v _ hjlen _
        omega
    · rcases Nat.lt_or_ge n 2 with hn1 | hn2
      · -- diff = 1
        have hn1' : n = 1 := by omega
        subst hn1'
        have heq1 : end_j = start_j + 1 := by omega
        have hstartlt : start_j < s.len := by omega
        obtain ⟨h0, v0, hB⟩ := hlive start_j hstartlt
        rw [search_for_new_spot, dif_neg (by omega), dif_pos (by omega)]
        have hlow_le : v0 ≤ elem →
            ∀ j hj v, j < end_j → s.backing.getD j none = some (hj, v) →
              v ≤ elem := by
          intro hv0 j hj v hjlt hBj
          have hjle : j ≤ start_j := by omega
          rcases Nat.eq_or_lt_of_le hjle with hje | hjlt2
          · rw [hje, hB] at hBj
            injection hBj with h1
            injection h1 with _ h2
            exact h2 ▸ hv0
          · exact le_trans (hsorted j start_j hj v h0 v0 hjlt2 hstartlt hBj hB) hv0
        have hhigh_ge : ∀ j hj v, end_j ≤ j → j < s.len →
            s.backing.getD j none = some (hj, v) → elem < v := by
          intro j hj v hjge hjlen hBj
          rcases hend with hEl | ⟨hE, vE, hBE, hvE⟩
          · omega
          · rcases Nat.eq_or_lt_of_le hjge with hje | hjgt
            · rw [← hje, hBE] at hBj
              injection hBj with h1
              injection h1 with _ h2
              exact h2 ▸ hvE
            · exact lt_of_lt_of_le hvE
                (hsorted end_j j hE vE hj v hjgt hjlen hBE hBj)
        rcases hc : cmp v0 elem with hlt | heq | hgt
        · have hv0 : v0 ≤ elem := le_of_lt ((cmp_eq_lt_iff _ _).mp hc)
          exact ⟨end_j, by simp only [hB]; rw [hc], by omega, by omega,
            hlow_le hv0, hhigh_ge⟩
        · have hv0 : v0 ≤ elem := le_of_eq ((cmp_eq_eq_iff _ _).mp hc)
          exact ⟨end_j, by simp only [hB]; rw [hc], by omega, by omega,
            hlow_le hv0, hhigh_ge⟩
        · have hv0 : elem < v0 := (cmp_eq_gt_iff _ _).mp hc
          have hstart0 : start_j = 0 := by
            rcases hstart with h | ⟨hj', v', hB', hle⟩
            · exact h
            · rw [hB] at hB'
              injection hB' with h1
              injection h1 with _ h2
              subst h2
              exact absurd hle (not_le.mpr hv0)
          subst hstart0
          refine ⟨0, by simp only [hB]; rw [hc]; simp, by omega, by omega, ?_, ?_⟩
          · intro j hj v hjlt _
            omega
          · intro j hj v _ hjlen hBj
            rcases Nat.eq_zero_or_pos j with hj0 | hjpos
            · subst hj0
              rw [hB] at hBj
              injection hBj with h1
              injection h1 with _ h2
              exact h2 ▸ hv0
            · exact lt_of_lt_of_le hv0
                (hsorted 0 j h0 v0 hj v hjpos hjlen hB hBj)
      · -- diff ≥ 2: recurse on a half
        have hmidlt : start_j + n / 2 < end_j := by omega
        have hmidgt : start_j < start_j + n / 2 := by omega
        obtain ⟨hmid, vm, hBm⟩ := hlive (start_j + n / 2) (by omega)
        rw [search_for_new_spot, dif_neg (by omega), dif_neg (by omega), hn]
        rcases hc : cmp vm elem with hlt | heq | hgt
        · have hv : vm ≤ elem := le_of_lt ((cmp_eq_lt_iff _ _).mp hc)
          obtain ⟨spot, hrec, hs1, hs2, hlow, hhigh⟩ :=
            ih (end_j - (start_j + n / 2)) (by omega) (start_j + n / 2) end_j
              rfl (by omega) hel (Or.inl hmidlt)
              (Or.inr ⟨hmid, vm, hBm, hv⟩) hend
          exact ⟨spot, by simp only [hBm]; rw [hc]; exact hrec, by omega, hs2,
            hlow, hhigh⟩
        · have hv : vm ≤ elem := le_of_eq ((cmp_eq_eq_iff _ _).mp hc)
          obtain ⟨spot, hrec, hs1, hs2, hlow, hhigh⟩ :=
            ih (end_j - (start_j + n / 2)) (by omega) (start_j + n / 2) end_j
              rfl (by omega) hel (Or.inl hmidlt)
              (Or.inr ⟨hmid, vm, hBm, hv⟩) hend
          exact ⟨spot, by simp only [hBm]; rw [hc]; exact hrec, by omega, hs2,
            hlow, hhigh⟩
        · have hv : elem < vm := (cmp_eq_gt_iff _ _).mp hc
          obtain ⟨spot, hrec, hs1, hs2, hlow, hhigh⟩ :=
            ih (start_j + n / 2 - start_j) (by omega) start_j (start_j + n / 2)
              rfl (by omega) (by omega) (Or.inl hmidgt) hstart
              (Or.inr ⟨hmid, vm, hBm, hv⟩)
          exact ⟨spot, by simp only [hBm]; rw [hc]; exact hrec, hs1, by omega,
            hlow, hhigh⟩


theorem pushShiftGo_spec :
    ∀ (count : Nat) (b : List (Option (Nat × T))) (ind : List (Option Nat))
      (spot : Nat),
      spot + count < b.length →
      (∀ c, c < count → ∃ hc v, b.getD (spot + c) none = some (hc, v) ∧
        hc < ind.length ∧ ind.getD hc none = some (spot + c)) →
      ∃ b' ind', pushShiftGo b ind spot count = .ok (b', ind') ∧
        b'.length = b.length ∧ ind'.length = ind.length ∧
        (∀ x, x < spot → b'.getD x none = b.getD x none) ∧
        b'.getD spot none = (if count = 0 then b.getD spot none else none) ∧
        (∀ c, c < count → b'.getD (spot + c + 1) none = b.getD (spot + c) none) ∧
        (∀ x, spot + count < x → b'.getD x none = b.getD x none) ∧
        (∀ hh, (∀ c v, c < count → b.getD (spot + c) none ≠ some (hh, v)) →
          ind'.getD hh none = ind.getD hh none) ∧
        (∀ c hh v, c < count → b.getD (spot + c) none = some (hh, v) →
          ind'.getD hh none = some (spot + c + 1)) := by
  intro count
  induction count with
  | zero =>
    intro b ind spot _ _
    refine ⟨b, ind, rfl, rfl, rfl, fun x _ => rfl, by simp, ?_, fun x _ => rfl,
      fun hh _ => rfl, ?_⟩
    · intro c hc
      omega
    · intro c hh v hc
      omega
  | succ c ihc =>
    intro b ind spot hlenb hpath
    obtain ⟨hc, vc, hBc, hcL, hIc⟩ := hpath c (by omega)
    have hjL : spot + c < b.length := by omega
    have hj1L : spot + c + 1 < b.length := by omega
    rw [pushShiftGo]
    rw [hBc]
    simp only [hIc]
    rw [if_neg (by omega)]
    -- recurse on (b.set (spot+c) none).set (spot+c+1) (some (hc, vc)) and
    -- ind.set hc (some (spot+c+1))
    obtain ⟨b', ind', hrec, hbl, hil, hP1, hP2, hP3, hP4, hP5, hP6⟩ :=
      ihc ((b.set (spot + c) none).set (spot + c + 1) (some (hc, vc)))
        (ind.set hc (some (spot + c + 1))) spot
        (by simp only [List.length_set]; omega)
        (by
          intro c' hc'
          obtain ⟨hc'', v'', hB'', hL'', hI''⟩ := hpath c' (by omega)
          refine ⟨hc'', v'', ?_, by simpa [List.length_set] using hL'', ?_⟩
          · rw [getD_set_ne (by omega), getD_set_ne (by omega)]
            exact hB''
          · have hne : hc ≠ hc'' := by
              intro hcon
              rw [← hcon, hIc] at hI''
              injection hI'' with h1
              omega
            rw [getD_set_ne hne]
            exact hI'')
    refine ⟨b', ind', hrec, by simp only [List.length_set] at hbl; exact hbl,
      by simp only [List.length_set] at hil; exact hil, ?_, ?_, ?_, ?_, ?_, ?_⟩
    · intro x hx
      rw [hP1 x hx, getD_set_ne (by omega), getD_set_ne (by omega)]
    · rw [if_neg (by omega)]
      match c, hP2 with
      | 0, hP2 =>
        rw [hP2, if_pos rfl, getD_set_ne (by omega)]
        exact getD_set_self hjL
      | c + 1, hP2 =>
        rw [hP2, if_neg (by omega)]
    · intro c' hc'
      rcases Nat.lt_or_ge c' c with hlt | hge
      · rw [hP3 c' hlt, getD_set_ne (by omega), getD_set_ne (by omega)]
      · have hceq : c' = c := by omega
        subst hceq
        rw [hP4 (spot + c' + 1) (by omega),
          getD_set_self (by simp only [List.length_set]; exact hj1L), hBc]
    · intro x hx
      rw [hP4 x (by omega), getD_set_ne (by omega), getD_set_ne (by omega)]
    · intro hh hnot
      have hne : hc ≠ hh := by
        intro hcon
        exact hnot c vc (by omega) (hcon ▸ hBc)
      rw [hP5 hh, getD_set_ne hne]
      intro c' v hc' hB'
      rw [getD_set_ne (by omega), getD_set_ne (by omega)] at hB'
      exact hnot c' v (by omega) hB'
    · intro c' hh v hc' hB'
      rcases Nat.lt_or_ge c' c with hlt | hge
      · exact hP6 c' hh v hlt
          (by rw [getD_set_ne (by omega), getD_set_ne (by omega)]; exact hB')
      · have hceq : c' = c := by omega
        subst hceq
        rw [hBc] at hB'
        injection hB' with h1
        injection h1 with h2 h3
        subst h2
        have hside : ∀ (c'' : Nat) (v'' : T), c'' < c' →
            ((b.set (spot + c') none).set (spot + c' + 1)
              (some (hc, vc))).getD (spot + c'') none ≠ some (hc, v'') := by
          intro c'' v'' hc'' hB''
          rw [getD_set_ne (by omega), getD_set_ne (by omega)] at hB''
          obtain ⟨hx, vx, hBx, _, hIx⟩ := hpath c'' (by omega)
          rw [hBx] at hB''
          injection hB'' with h4
          injection h4 with h5 h6
          subst h5
          rw [hIx] at hIc
          injection hIc with h7
          omega
        rw [hP5 hc (fun c'' v'' hc'' => hside c'' v'' hc''), getD_set_self hcL]



theorem popShiftGo_spec :
    ∀ (count : Nat) (b : List (Option (Nat × T))) (ind : List (Option Nat))
      (cur : Nat),
      cur + count < b.length →
      (∀ c, c < count → ∃ hc v, b.getD (cur + c + 1) none = some (hc, v) ∧
        hc < ind.length ∧ ind.getD hc none = some (cur + c + 1)) →
      ∃ b' ind', popShiftGo b ind cur count = (b', ind') ∧
        b'.length = b.length ∧ ind'.length = ind.length ∧
        (∀ x, x < cur → b'.getD x none = b.getD x none) ∧
        (∀ c, c < count → b'.getD (cur + c) none = b.getD (cur + c + 1) none) ∧
        b'.getD (cur + count) none =
          (if count = 0 then b.getD (cur + count) none else none) ∧
        (∀ x, cur + count < x → b'.getD x none = b.getD x none) ∧
        (∀ hh, (∀ c v, c < count → b.getD (cur + c + 1) none ≠ some (hh, v)) →
          ind'.getD hh none = ind.getD hh none) ∧
        (∀ c hh v, c < count → b.getD (cur + c + 1) none = some (hh, v) →
          ind'.getD hh none = some (cur + c)) := by
  intro count
  induction count with
  | zero =>
    intro b ind cur _ _
    refine ⟨b, ind, rfl, rfl, rfl, fun x _ => rfl, ?_, by simp, fun x _ => rfl,
      fun hh _ => rfl, ?_⟩
    · intro c hcn
      omega
    · intro c hh v hcn
      omega
  | succ c ihc =>
    intro b ind cur hlenb hpath
    obtain ⟨h1, v1, hB1, h1L, hI1⟩ := hpath 0 (by omega)
    have hcur1L : cur + 1 < b.length := by omega
    have hcurL : cur < b.length := by omega
    rw [popShiftGo]
    have hB1' : b.getD (cur + 1) none = some (h1, v1) := by
      have : cur + 0 + 1 = cur + 1 := by omega
      rwa [this] at hB1
    have hI1' : ind.getD h1 none = some (cur + 1) := by
      have : cur + 0 + 1 = cur + 1 := by omega
      rwa [this] at hI1
    rw [hB1']
    simp only [hI1']
    obtain ⟨b', ind', hrec, hbl, hil, hP1, hP2, hP3, hP4, hP5, hP6⟩ :=
      ihc ((b.set (cur + 1) none).set cur (some (h1, v1)))
        (ind.set h1 (some (cur + 1 - 1))) (cur + 1)
        (by simp only [List.length_set]; omega)
        (by
          intro c' hc'
          obtain ⟨hc'', v'', hB'', hL'', hI''⟩ := hpath (c' + 1) (by omega)
          have harr : cur + (c' + 1) + 1 = cur + 1 + c' + 1 := by omega
          rw [harr] at hB'' hI''
          refine ⟨hc'', v'', ?_, by simpa [List.length_set] using hL'', ?_⟩
          · rw [getD_set_ne (by omega), getD_set_ne (by omega)]
            exact hB''
          · have hne : h1 ≠ hc'' := by
              intro hcon
              rw [← hcon, hI1'] at hI''
              injection hI'' with hx
              omega
            rw [getD_set_ne hne]
            exact hI'')
    refine ⟨b', ind', hrec, by simp only [List.length_set] at hbl; exact hbl,
      by simp only [List.length_set] at hil; exact hil, ?_, ?_, ?_, ?_, ?_, ?_⟩
    · intro x hx
      rw [hP1 x (by omega), getD_set_ne (by omega), getD_set_ne (by omega)]
    · intro c' hc'
      match c', hc' with
      | 0, _ =>
        have harr : cur + 0 = cur := by omega
        rw [harr]
        rw [hP1 cur (by omega), getD_set_self (by
          simp only [List.length_set]; exact hcurL)]
        have harr2 : cur + 0 + 1 = cur + 1 := by omega
        rw [harr2, hB1']
      | c'' + 1, hc' =>
        have harr : cur + (c'' + 1) = cur + 1 + c'' := by omega
        rw [harr, hP2 c'' (by omega), getD_set_ne (by omega),
          getD_set_ne (by omega)]
    · have harr : cur + (c + 1) = cur + 1 + c := by omega
      rw [harr, hP3]
      match c, hP3 with
      | 0, _ =>
        rw [if_pos rfl, if_neg (by omega)]
        rw [getD_set_ne (by omega)]
        exact getD_set_self hcur1L
      | c'' + 1, _ =>
        rw [if_neg (by omega), if_neg (by omega)]
    · intro x hx
      rw [hP4 x (by omega), getD_set_ne (by omega), getD_set_ne (by omega)]
    · intro hh hnot
      have hne : h1 ≠ hh := by
        intro hcon
        exact hnot 0 v1 (by omega) (hcon ▸ hB1)
      rw [hP5 hh, getD_set_ne hne]
      intro c' v hc' hB'
      rw [getD_set_ne (by omega), getD_set_ne (by omega)] at hB'
      have harr : cur + 1 + c' + 1 = cur + (c' + 1) + 1 := by omega
      rw [harr] at hB'
      exact hnot (c' + 1) v (by omega) hB'
    · intro c' hh v hc' hB'
      match c', hc' with
      | 0, _ =>
        have harr : cur + 0 + 1 = cur + 1 := by omega
        rw [harr, hB1'] at hB'
        injection hB' with hx
        injection hx with hx1 hx2
        subst hx1
        have hside : ∀ (c'' : Nat) (v'' : T), c'' < c →
            ((b.set (cur + 1) none).set cur
              (some (h1, v1))).getD (cur + 1 + c'' + 1) none ≠
              some (h1, v'') := by
          intro c'' v'' hc'' hB''
          rw [getD_set_ne (by omega), getD_set_ne (by omega)] at hB''
          obtain ⟨hx, vx, hBx, _, hIx⟩ := hpath (c'' + 1) (by omega)
          have harr2 : cur + (c'' + 1) + 1 = cur + 1 + c'' + 1 := by omega
          rw [harr2] at hBx
          rw [hBx] at hB''
          injection hB'' with h4
          injection h4 with h5 h6
          subst h5
          rw [hIx] at hI1'
          injection hI1' with h7
          omega
        rw [hP5 h1 (fun c'' v'' hc'' => hside c'' v'' hc''),
          getD_set_self h1L]
        have harr3 : cur + 1 - 1 = cur + 0 := by omega
        rw [harr3]
      | c'' + 1, hc' =>
        have harr : cur + (c'' + 1) + 1 = cur + 1 + c'' + 1 := by omega
        rw [harr] at hB'
        have hres := hP6 c'' hh v (by omega)
          (by rw [getD_set_ne (by omega), getD_set_ne (by omega)]; exact hB')
        have harr2 : cur + 1 + c'' = cur + (c'' + 1) := by omega
        rwa [harr2] at hres



theorem Inv_new (N : Nat) : Inv (T := T) N (new T N) := by
  refine ⟨List.length_replicate _ _, List.length_replicate _ _, by simp [new],
    ?_, ?_, ?_, ?_, ?_⟩
  · intro j hj
    simp [new] at hj
  · intro j _
    exact getD_replicate
  · intro hj hl
    simp [new] at hl
  · intro hj _
    exact getD_replicate
  · intro j j' hj v hj' v' _ hlt _ _
    simp [new] at hlt

theorem pushed_Inv {s : SearchableList T} {elem : T} {N spot : Nat}
    (hInv : Inv N s) (hlen : s.len < N) (hspotlen : spot ≤ s.len)
    (hlow : ∀ j hj v, j < spot → s.backing.getD j none = some (hj, v) → v ≤ elem)
    (hhigh : ∀ j hj v, spot ≤ j → j < s.len →
      s.backing.getD j none = some (hj, v) → elem < v)
    {b' : List (Option (Nat × T))} {ind' : List (Option Nat)}
    (hbl : b'.length = s.backing.length) (hil : ind'.length = s.indices.length)
    (hQ1 : ∀ x, x < spot → b'.getD x none = s.backing.getD x none)
    (hQ2 : b'.getD spot none =
      (if s.len - spot = 0 then s.backing.getD spot none else none))
    (hQ3 : ∀ c, c < s.len - spot →
      b'.getD (spot + c + 1) none = s.backing.getD (spot + c) none)
    (hQ4 : ∀ x, spot + (s.len - spot) < x →
      b'.getD x none = s.backing.getD x none)
    (hQ5 : ∀ hh, (∀ c v, c < s.len - spot →
        s.backing.getD (spot + c) none ≠ some (hh, v)) →
      ind'.getD hh none = s.indices.getD hh none)
    (hQ6 : ∀ c hh v, c < s.len - spot →
      s.backing.getD (spot + c) none = some (hh, v) →
      ind'.getD hh none = some (spot + c + 1)) :
    Inv N { backing := b'.set spot (some (s.len, elem)),
            indices := ind'.set s.len (some spot), len := s.len + 1 } := by
  obtain ⟨hBL, hIL, hLN, hbackLive, hbackDead, hidxLive, hidxDead, hsorted⟩ :=
    hInv
  have hspotB : spot < b'.length := by omega
  have hlenI : s.len < ind'.length := by omega
  have hb_lt : ∀ x, x < spot →
      (b'.set spot (some (s.len, elem))).getD x none = s.backing.getD x none := by
    intro x hx
    rw [getD_set_ne (by omega)]
    exact hQ1 x hx
  have hb_at : (b'.set spot (some (s.len, elem))).getD spot none =
      some (s.len, elem) := getD_set_self hspotB
  have hb_mid : ∀ x, spot < x → x ≤ s.len →
      (b'.set spot (some (s.len, elem))).getD x none =
        s.backing.getD (x - 1) none := by
    intro x hx1 hx2
    rw [getD_set_ne (by omega)]
    have hc : x - 1 - spot < s.len - spot := by omega
    have harr : spot + (x - 1 - spot) + 1 = x := by omega
    have harr2 : spot + (x - 1 - spot) = x - 1 := by omega
    have := hQ3 (x - 1 - spot) hc
    rw [harr, harr2] at this
    exact this
  have hb_gt : ∀ x, s.len < x →
      (b'.set spot (some (s.len, elem))).getD x none =
        s.backing.getD x none := by
    intro x hx
    rw [getD_set_ne (by omega)]
    exact hQ4 x (by omega)
  have hnotmoved : ∀ hh j, s.indices.getD hh none = some j → j < spot →
      hh ≠ s.len → (ind'.set s.len (some spot)).getD hh none = some j := by
    intro hh j hI hj hne
    rw [getD_set_ne (fun hx => hne hx.symm)]
    rw [hQ5 hh]
    · exact hI
    · intro c v hc hB
      obtain ⟨h2, v2, hB2, _, hI2⟩ := hbackLive (spot + c) (by omega)
      rw [hB2] at hB
      injection hB with hx
      injection hx with hx1 hx2
      subst hx1
      rw [hI2] at hI
      injection hI with hx3
      omega
  have hmoved : ∀ hh c v, c < s.len - spot →
      s.backing.getD (spot + c) none = some (hh, v) →
      (ind'.set s.len (some spot)).getD hh none = some (spot + c + 1) := by
    intro hh c v hc hB
    obtain ⟨h2, v2, hB2, hlt2, _⟩ := hbackLive (spot + c) (by omega)
    rw [hB2] at hB
    injection hB with hx
    injection hx with hx1 hx2
    subst hx1
    rw [getD_set_ne (by omega)]
    exact hQ6 c h2 v2 hc hB2
  refine ⟨by simp only [List.length_set]; omega,
    by simp only [List.length_set]; omega, by simp only; omega, ?_, ?_, ?_, ?_,
    ?_⟩
  · -- backLive
    intro j hj
    simp only at hj ⊢
    rcases Nat.lt_trichotomy j spot with hjs | hjs | hjs
    · obtain ⟨hh, v, hB, hhlt, hI⟩ := hbackLive j (by omega)
      exact ⟨hh, v, by rw [hb_lt j hjs]; exact hB, by omega,
        hnotmoved hh j hI (by omega) (by omega)⟩
    · subst hjs
      exact ⟨s.len, elem, hb_at, by omega, getD_set_self hlenI⟩
    · obtain ⟨hh, v, hB, hhlt, hI⟩ := hbackLive (j - 1) (by omega)
      refine ⟨hh, v, by rw [hb_mid j hjs (by omega)]; exact hB, by omega, ?_⟩
      have hres := hmoved hh (j - 1 - spot) v (by omega)
        (by
          have harr : spot + (j - 1 - spot) = j - 1 := by omega
          rw [harr]
          exact hB)
      have harr2 : spot + (j - 1 - spot) + 1 = j := by omega
      rwa [harr2] at hres
  · -- backDead
    intro j hj
    simp only at hj ⊢
    rw [hb_gt j (by omega)]
    exact hbackDead j (by omega)
  · -- idxLive
    intro hh hhlt
    simp only at hhlt ⊢
    rcases Nat.lt_or_ge hh s.len with hhlen | hhlen
    · obtain ⟨j, v, hI, hjlt, hB⟩ := hidxLive hh hhlen
      rcases Nat.lt_or_ge j spot with hjs | hjs
      · exact ⟨j, v, hnotmoved hh j hI hjs (by omega), by omega,
          by rw [hb_lt j hjs]; exact hB⟩
      · have hres := hmoved hh (j - spot) v (by omega)
          (by
            have harr : spot + (j - spot) = j := by omega
            rw [harr]
            exact hB)
        have harr2 : spot + (j - spot) + 1 = j + 1 := by omega
        rw [harr2] at hres
        exact ⟨j + 1, v, hres, by omega,
          by rw [hb_mid (j + 1) (by omega) (by omega)]; simpa using hB⟩
    · have hhe : hh = s.len := by omega
      subst hhe
      exact ⟨spot, elem, getD_set_self hlenI, by omega, hb_at⟩
  · -- idxDead
    intro hh hge
    simp only at hge ⊢
    rw [getD_set_ne (by omega)]
    rw [hQ5 hh]
    · exact hidxDead hh (by omega)
    · intro c v hc hB
      obtain ⟨h2, v2, hB2, hlt2, _⟩ := hbackLive (spot + c) (by omega)
      rw [hB2] at hB
      injection hB with hx
      injection hx with hx1 hx2
      omega
  · -- sorted
    intro j j' hj v hj' v' hjj hj'len hBj hBj'
    simp only at hj'len hBj hBj'
    rcases Nat.lt_trichotomy j' spot with hs' | hs' | hs'
    · -- both strictly below spot
      rw [hb_lt j (by omega)] at hBj
      rw [hb_lt j' hs'] at hBj'
      exact hsorted j j' hj v hj' v' hjj (by omega) hBj hBj'
    · -- j' = spot : v' = elem
      subst hs'
      rw [hb_at] at hBj'
      injection hBj' with hx
      injection hx with hx1 hx2
      subst hx2
      rw [hb_lt j hjj] at hBj
      exact hlow j hj v hjj hBj
    · -- spot < j'
      have hv'b : s.backing.getD (j' - 1) none = some (hj', v') := by
        rw [← hb_mid j' hs' (by omega)]
        exact hBj'
      have helemlt : elem < v' :=
        hhigh (j' - 1) hj' v' (by omega) (by omega) hv'b
      rcases Nat.lt_trichotomy j spot with hs | hs | hs
      · rw [hb_lt j hs] at hBj
        exact le_trans (hlow j hj v hs hBj) (le_of_lt helemlt)
      · subst hs
        rw [hb_at] at hBj
        injection hBj with hx
        injection hx with hx1 hx2
        subst hx2
        exact le_of_lt helemlt
      · rw [hb_mid j hs (by omega)] at hBj
        exact hsorted (j - 1) (j' - 1) hj v hj' v' (by omega) (by omega) hBj
          hv'b



theorem push_ok_Inv {s s' : SearchableList T} {elem : T} {N : Nat}
    (hInv : Inv N s) (hstep : s.push elem = .ok s') : Inv N s' := by
  have hBL := hInv.backLen
  have hIL := hInv.idxLen
  have hlen : s.len < N := by
    by_contra hcon
    rw [push, if_pos (by omega)] at hstep
    cases hstep
  obtain ⟨spot, hsearch, h0spot, hspotlen, hlow, hhigh⟩ :=
    search_for_new_spot_spec
      (fun j hj => by
        obtain ⟨a, b, c, _, _⟩ := hInv.backLive j hj
        exact ⟨a, b, c⟩)
      hInv.sorted s.len 0 s.len (by omega) (by omega) (by omega) (by omega)
      (Or.inl rfl) (Or.inl rfl)
  obtain ⟨b', ind', hgo, hbl, hil, hQ1, hQ2, hQ3, hQ4, hQ5, hQ6⟩ :=
    pushShiftGo_spec (s.len - spot) s.backing s.indices spot (by omega)
      (fun c hc => by
        obtain ⟨h2, v2, hB2, hlt2, hI2⟩ := hInv.backLive (spot + c) (by omega)
        exact ⟨h2, v2, hB2, by omega, hI2⟩)
  rw [push, if_neg (by omega)] at hstep
  rw [hsearch] at hstep
  dsimp only at hstep
  by_cases hsp : spot = s.len
  · have hc0 : s.len - spot = 0 := by omega
    rw [hc0, pushShiftGo] at hgo
    injection hgo with hpair
    injection hpair with hb'eq hi'eq
    rw [if_neg (by simp [hsp])] at hstep
    injection hstep with hs'
    subst hs'
    subst hb'eq
    subst hi'eq
    exact pushed_Inv hInv hlen hspotlen hlow hhigh hbl hil hQ1 hQ2 hQ3 hQ4 hQ5
      hQ6
  · rw [if_pos hsp] at hstep
    simp only [hgo] at hstep
    injection hstep with hs'
    subst hs'
    exact pushed_Inv hInv hlen hspotlen hlow hhigh hbl hil hQ1 hQ2 hQ3 hQ4 hQ5
      hQ6



theorem popped_Inv {s : SearchableList T} {N j : Nat} {v : T}
    (hInv : Inv N s) (_hlen0 : s.len ≠ 0)
    (hI : s.indices.getD (s.len - 1) none = some j)
    (hB : s.backing.getD j none = some (s.len - 1, v))
    (hjlt : j < s.len)
    {b' : List (Option (Nat × T))} {ind' : List (Option Nat)}
    (hbl : b'.length = (s.backing.set j none).length)
    (hil : ind'.length = s.indices.length)
    (hR1 : ∀ x, x < j → b'.getD x none = (s.backing.set j none).getD x none)
    (hR2 : ∀ c, c < s.len - 1 - j →
      b'.getD (j + c) none = (s.backing.set j none).getD (j + c + 1) none)
    (_hR3 : b'.getD (j + (s.len - 1 - j)) none =
      (if s.len - 1 - j = 0 then (s.backing.set j none).getD
        (j + (s.len - 1 - j)) none else none))
    (hR4 : ∀ x, j + (s.len - 1 - j) < x →
      b'.getD x none = (s.backing.set j none).getD x none)
    (hR5 : ∀ hh, (∀ c v2, c < s.len - 1 - j →
        (s.backing.set j none).getD (j + c + 1) none ≠ some (hh, v2)) →
      ind'.getD hh none = s.indices.getD hh none)
    (hR6 : ∀ c hh v2, c < s.len - 1 - j →
      (s.backing.set j none).getD (j + c + 1) none = some (hh, v2) →
      ind'.getD hh none = some (j + c)) :
    Inv N { backing := b'.set (s.len - 1) none,
            indices := ind'.set (s.len - 1) none, len := s.len - 1 } := by
  obtain ⟨hBL, hIL, hLN, hbackLive, hbackDead, hidxLive, hidxDead, hsorted⟩ :=
    hInv
  have hJL : j < s.backing.length := by omega
  have hbl' : b'.length = s.backing.length := by
    rw [hbl, List.length_set]
  have hb0 : ∀ x, x ≠ j →
      (s.backing.set j none).getD x none = s.backing.getD x none := by
    intro x hx
    rw [getD_set_ne (fun hc => hx hc.symm)]
  have hb_lt : ∀ x, x < j →
      (b'.set (s.len - 1) none).getD x none = s.backing.getD x none := by
    intro x hx
    rw [getD_set_ne (by omega), hR1 x hx, hb0 x (by omega)]
  have hb_mid : ∀ x, j ≤ x → x < s.len - 1 →
      (b'.set (s.len - 1) none).getD x none = s.backing.getD (x + 1) none := by
    intro x hx1 hx2
    rw [getD_set_ne (by omega)]
    have hc : x - j < s.len - 1 - j := by omega
    have harr : j + (x - j) = x := by omega
    have := hR2 (x - j) hc
    rw [harr] at this
    rw [this, hb0 (x + 1) (by omega)]
  have hb_dead : ∀ x, s.len - 1 ≤ x →
      (b'.set (s.len - 1) none).getD x none = none := by
    intro x hx
    rcases Nat.eq_or_lt_of_le hx with hxe | hxlt
    · rw [← hxe]
      exact getD_set_self (by omega)
    · rw [getD_set_ne (by omega), hR4 x (by omega), hb0 x (by omega)]
      exact hbackDead x (by omega)
  have hmovedne : ∀ hh c v2, c < s.len - 1 - j →
      s.backing.getD (j + c + 1) none = some (hh, v2) → hh ≠ s.len - 1 := by
    intro hh c v2 hc hB2 hcon
    obtain ⟨h3, v3, hB3, _, hI3⟩ := hbackLive (j + c + 1) (by omega)
    rw [hB3] at hB2
    injection hB2 with hx
    injection hx with hx1 hx2
    subst hx1
    subst hcon
    rw [hI3] at hI
    injection hI with hx3
    omega
  have hi_keep : ∀ hh x, s.indices.getD hh none = some x → x < j →
      hh ≠ s.len - 1 →
      (ind'.set (s.len - 1) none).getD hh none = some x := by
    intro hh x hI2 hx hne
    rw [getD_set_ne (fun hc => hne hc.symm), hR5 hh]
    · exact hI2
    · intro c v2 hc hB2
      rw [hb0 (j + c + 1) (by omega)] at hB2
      obtain ⟨h3, v3, hB3, _, hI3⟩ := hbackLive (j + c + 1) (by omega)
      rw [hB3] at hB2
      injection hB2 with hx'
      injection hx' with hx1 hx2
      subst hx1
      rw [hI3] at hI2
      injection hI2 with hx3
      omega
  have hi_moved : ∀ hh c v2, c < s.len - 1 - j →
      s.backing.getD (j + c + 1) none = some (hh, v2) →
      (ind'.set (s.len - 1) none).getD hh none = some (j + c) := by
    intro hh c v2 hc hB2
    have hne := hmovedne hh c v2 hc hB2
    rw [getD_set_ne (fun hc' => hne hc'.symm)]
    exact hR6 c hh v2 hc (by rw [hb0 (j + c + 1) (by omega)]; exact hB2)
  refine ⟨by simp only [List.length_set] at hbl ⊢; omega,
    by simp only [List.length_set] at hil ⊢; omega, by simp only; omega, ?_,
    ?_, ?_, ?_, ?_⟩
  · -- backLive
    intro x hx
    simp only at hx ⊢
    rcases Nat.lt_or_ge x j with hxj | hxj
    · obtain ⟨h2, v2, hB2, hlt2, hI2⟩ := hbackLive x (by omega)
      have hne : h2 ≠ s.len - 1 := by
        intro hcon
        rw [hcon, hI] at hI2
        injection hI2 with hx'
        omega
      exact ⟨h2, v2, by rw [hb_lt x hxj]; exact hB2, by omega,
        hi_keep h2 x hI2 hxj hne⟩
    · obtain ⟨h2, v2, hB2, hlt2, hI2⟩ := hbackLive (x + 1) (by omega)
      have hne : h2 ≠ s.len - 1 := by
        intro hcon
        rw [hcon, hI] at hI2
        injection hI2 with hx'
        omega
      have hres := hi_moved h2 (x - j) v2 (by omega)
        (by
          have harr : j + (x - j) + 1 = x + 1 := by omega
          rw [harr]
          exact hB2)
      have harr2 : j + (x - j) = x := by omega
      rw [harr2] at hres
      exact ⟨h2, v2, by rw [hb_mid x hxj (by omega)]; exact hB2, by omega, hres⟩
  · -- backDead
    intro x hx
    simp only at hx ⊢
    exact hb_dead x (by omega)
  · -- idxLive
    intro hh hhlt
    simp only at hhlt ⊢
    obtain ⟨x, v2, hI2, hxlt, hB2⟩ := hidxLive hh (by omega)
    have hxj : x ≠ j := by
      intro hcon
      rw [hcon, hB] at hB2
      injection hB2 with hx'
      injection hx' with hx1 hx2
      omega
    rcases Nat.lt_or_ge x j with hxlt' | hxge
    · exact ⟨x, v2, hi_keep hh x hI2 hxlt' (by omega), by omega,
        by rw [hb_lt x hxlt']; exact hB2⟩
    · have hxgt : j < x := by omega
      have hres := hi_moved hh (x - j - 1) v2 (by omega)
        (by
          have harr : j + (x - j - 1) + 1 = x := by omega
          rw [harr]
          exact hB2)
      have harr2 : j + (x - j - 1) = x - 1 := by omega
      rw [harr2] at hres
      exact ⟨x - 1, v2, hres, by omega,
        by rw [hb_mid (x - 1) (by omega) (by omega)]
           have harr3 : x - 1 + 1 = x := by omega
           rw [harr3]
           exact hB2⟩
  · -- idxDead
    intro hh hge
    simp only at hge ⊢
    rcases Nat.eq_or_lt_of_le hge with hhe | hhlt
    · rw [← hhe]
      exact getD_set_self (by omega)
    · rw [getD_set_ne (by omega), hR5 hh]
      · exact hidxDead hh (by omega)
      · intro c v2 hc hB2
        rw [hb0 (j + c + 1) (by omega)] at hB2
        obtain ⟨h3, v3, hB3, hlt3, _⟩ := hbackLive (j + c + 1) (by omega)
        rw [hB3] at hB2
        injection hB2 with hx'
        injection hx' with hx1 hx2
        omega
  · -- sorted
    intro x x' hx vx hx' vx' hxx hx'len hBx hBx'
    simp only at hx'len hBx hBx'
    rcases Nat.lt_or_ge x' j with hj' | hj'
    · rw [hb_lt x (by omega)] at hBx
      rw [hb_lt x' hj'] at hBx'
      exact hsorted x x' hx vx hx' vx' hxx (by omega) hBx hBx'
    · rw [hb_mid x' hj' (by omega)] at hBx'
      rcases Nat.lt_or_ge x j with hjx | hjx
      · rw [hb_lt x hjx] at hBx
        exact hsorted x (x' + 1) hx vx hx' vx' (by omega) (by omega) hBx hBx'
      · rw [hb_mid x hjx (by omega)] at hBx
        exact hsorted (x + 1) (x' + 1) hx vx hx' vx' (by omega) (by omega) hBx
          hBx'

theorem pop_ok_Inv {s s' : SearchableList T} {r : Option T} {N : Nat}
    (hInv : Inv N s) (hstep : s.pop = .ok (s', r)) : Inv N s' := by
  by_cases hlen0 : s.len = 0
  · rw [pop, if_pos hlen0] at hstep
    injection hstep with hpair
    injection hpair with hs' hr
    rw [← hs']
    exact hInv
  · have hBL := hInv.backLen
    have hIL := hInv.idxLen
    have hLN := hInv.lenLe
    obtain ⟨j, v, hI, hjlt, hB⟩ := hInv.idxLive (s.len - 1) (by omega)
    obtain ⟨b', ind', hgo, hbl, hil, hR1, hR2, hR3, hR4, hR5, hR6⟩ :=
      popShiftGo_spec (s.len - 1 - j) (s.backing.set j none) s.indices j
        (by simp only [List.length_set]; omega)
        (fun c hc => by
          obtain ⟨h2, v2, hB2, hlt2, hI2⟩ := hInv.backLive (j + c + 1) (by omega)
          refine ⟨h2, v2, ?_, by omega, hI2⟩
          rw [getD_set_ne (by omega)]
          exact hB2)
    rw [pop, if_neg hlen0] at hstep
    rw [hI] at hstep
    dsimp only at hstep
    rw [hB] at hstep
    dsimp only at hstep
    rw [if_neg (by omega)] at hstep
    rw [hgo] at hstep
    dsimp only at hstep
    injection hstep with hpair
    injection hpair with hs' hr
    rw [← hs']
    exact popped_Inv hInv hlen0 hI hB hjlt hbl hil hR1 hR2 hR3 hR4 hR5 hR6

theorem reachable_Inv {s : SearchableList T} {N : Nat}
    (h : Reachable N s) : Inv N s := by
  induction h with
  | new => exact Inv_new N
  | push _ hstep ih => exact push_ok_Inv ih hstep
  | pop _ hstep ih => exact pop_ok_Inv ih hstep


end SearchableList

/-- C8.  Every `SearchableList` state reachable from `new()` by pushes and
pops satisfies the bidirectional handle/position invariant (`backing[j] =
Some((h, v))` implies `indices[h] = Some(j)` for `j < len`) and the live
values are non-decreasing; since the set of reachable states is closed under
`push` and `pop`, both properties are preserved by every push and pop. -/
theorem c8_searchable_list_invariants {T : Type} [LinearOrder T] (N : Nat)
    (s : SearchableList T) (h : SearchableList.Reachable N s) :
    (∀ j hj v, j < s.len → s.backing.getD j none = some (hj, v) →
      s.indices.getD hj none = some j) ∧ SearchableList.SortedBacking s := by
  have hInv := SearchableList.reachable_Inv h
  refine ⟨?_, hInv.sorted⟩
  intro j hj v hjlt hB
  obtain ⟨h2, v2, hB2, _, hI2⟩ := hInv.backLive j hjlt
  rw [hB2] at hB
  injection hB with hx
  injection hx with hx1 hx2
  subst hx1
  exact hI2

theorem slP4_reachable : SearchableList.Reachable 10 slP4 :=
  .push (.push (.push (.push .new slP1_step) slP2_step) slP3_step) slP4_step

/-- C8 (witness): the invariant instantiated on the concrete reachable state
`slP4` (pushes 1, 3, 2, 0 into an empty list of capacity 10). -/
theorem c8_witness :
    (∀ j hj v, j < slP4.len → slP4.backing.getD j none = some (hj, v) →
      slP4.indices.getD hj none = some j) ∧
    SearchableList.SortedBacking slP4 :=
  c8_searchable_list_invariants 10 slP4 slP4_reachable


end StaticCollections
